import Mathlib

/-!
Shallow embedding of the `transit-isochrones` repository (Rust) in Lean 4.

The embedding covers, faithfully to the source:
  * `src/dijkstra.rs` — the reverse time-dependent Dijkstra search
    (namespace `Dij`);
  * `src/graph_builder.rs` — the staged `GraphBuilder` (namespace `Builder`);
  * `src/graph.rs` — the older string-keyed builder `build_graph_osm`
    (namespace `OldGraph`);
  * `src/isochrone.rs` — the GeoJSON emission (namespace `Geo`).

Rust `HashMap`s are modelled as association lists with first-match lookup
(the code never relies on iteration order except where noted), `u32` values
as `Nat` with explicit wrapping or saturation where the source can overflow,
`f64` coordinates and distances as `ℚ`, and the floating-point haversine as
an abstract distance-function parameter `dist` (none of the verified claims
depends on its value).  Panicking operations (`unwrap`, `expect`, unsigned
underflow) are modelled by an `Option` layer whose `none` means "panic".
-/

deriving instance DecidableEq for Except

namespace TransitIso

/-- First-match lookup in an association list, mirroring `HashMap::get`. -/
def lookupA {α β : Type} [DecidableEq α] : List (α × β) → α → Option β
  | [], _ => none
  | (k, v) :: rest, a => if k = a then some v else lookupA rest a

/-- Insert-or-replace, mirroring `HashMap::insert`. -/
def insertA {α β : Type} [DecidableEq α] : List (α × β) → α → β → List (α × β)
  | [], k, v => [(k, v)]
  | (k', v') :: rest, k, v =>
    if k' = k then (k, v) :: rest else (k', v') :: insertA rest k v

/-- `map.entry(k).or_default().push(v)` for a map of lists. -/
def pushEntry {α β : Type} [DecidableEq α] : List (α × List β) → α → β → List (α × List β)
  | [], k, v => [(k, [v])]
  | (k', vs) :: rest, k, v =>
    if k' = k then (k', vs ++ [v]) :: rest else (k', vs) :: pushEntry rest k v

/-- Rust's saturating `f64 as u32` cast, on the rational model of `f64`
(truncation toward zero, clamped to `[0, 2^32)`; `q.num / q.den` is the
integer part, and `Int.toNat` clamps negatives to `0`). -/
def ratToU32 (q : ℚ) : ℕ := min (Int.toNat (q.num / (q.den : ℤ))) (2 ^ 32 - 1)

/-- Exact rational division (kernel-computable formulation; Mathlib's field
division on `ℚ` is `@[irreducible]`).  `ratDiv_eq_div` below shows it agrees
with `·/·`. -/
def ratDiv (a b : ℚ) : ℚ := Rat.divInt (a.num * b.den) (a.den * b.num)

theorem ratDiv_eq_div (a b : ℚ) : ratDiv a b = a / b := by
  rcases eq_or_ne b 0 with rfl | hb
  · simp [ratDiv]
  · have hbn : (b.num : ℚ) ≠ 0 := by
      exact_mod_cast Rat.num_ne_zero.mpr hb
    have had : ((a.den : ℤ) : ℚ) ≠ 0 := by
      exact_mod_cast (Int.natCast_ne_zero).mpr a.den_nz
    rw [ratDiv, Rat.divInt_eq_div]
    push_cast
    conv_rhs => rw [← Rat.num_div_den a, ← Rat.num_div_den b]
    field_simp

/-- `WALKING_SPEED` from `src/dijkstra.rs` (1.0 m/s). -/
def WALKING_SPEED : ℚ := 1

/-- `MAX_DISTANCE` from `src/dijkstra.rs` (500 m). -/
def MAX_DISTANCE : ℚ := 500

/-- `KdTree::nearest(point, 1, dist)` / `nearest_point`: the nearest entry of
the spatial index under the supplied distance function (first entry wins
ties), together with its distance.  Returns `none` on an empty index. -/
def nearest_point {τ : Type} (dist : ℚ × ℚ → ℚ × ℚ → ℚ) :
    List ((ℚ × ℚ) × τ) → ℚ × ℚ → Option (ℚ × τ)
  | [], _ => none
  | (c, v) :: rest, pt =>
    match nearest_point dist rest pt with
    | none => some (dist pt c, v)
    | some (d', v') =>
      if d' < dist pt c then some (d', v') else some (dist pt c, v)

namespace Dij

/-- A node of the graph as consumed by `dijkstra` (`src/dijkstra.rs` reads
`graph.nodes.get(..).x` / `.y`); its type is declared outside `src/`, fields
reconstructed from the use sites. -/
structure DNode where
  x : ℚ
  y : ℚ
deriving DecidableEq

/-- An edge as consumed by `dijkstra`: `origin`/`destination` are `i64`
node ids; `start_time`, `end_time`, `traversal_time` are `Option<u32>`
(fields reconstructed from the use sites in `src/dijkstra.rs`). -/
structure DEdge where
  origin : ℤ
  destination : ℤ
  start_time : Option ℕ
  end_time : Option ℕ
  traversal_time : Option ℕ
deriving DecidableEq

/-- The graph as consumed by `dijkstra`: a node map and an adjacency map,
both keyed by `i64` ids (`graph.nodes` and `graph.neighbors`). -/
structure DGraph where
  nodes : List (ℤ × DNode)
  adjacency : List (ℤ × List DEdge)

/-- `State` from `src/dijkstra.rs`: heap entry of the search. -/
structure State where
  cost : ℕ
  position : ℤ
  coordinates : ℚ × ℚ
deriving DecidableEq

/-- The `Ord` instance of `State` ranks `a` above `b` when `a.cost` is
smaller, ties broken by larger `position` (the heap pops its maximum, and
`cmp` reverses cost). -/
def ranksAbove (a b : State) : Bool :=
  a.cost < b.cost || (a.cost = b.cost && b.position < a.position)

/-- `BinaryHeap::pop` on the list model of the heap: removes and returns a
top-ranked element (the first such element among equals). -/
def popBest : List State → Option (State × List State)
  | [] => none
  | s :: rest =>
    match popBest rest with
    | none => some (s, [])
    | some (b, others) =>
      if ranksAbove b s then some (b, s :: others) else some (s, rest)

/-- The guard `if let Some(start_time) = edge.start_time { if start_time <
cost { continue } }` (lines 106–110 of `src/dijkstra.rs`). -/
def tooEarly (cost : ℕ) : Option ℕ → Bool
  | some s => s < cost
  | none => false

/-- The guard `if let Some(end_time) = edge.end_time { if end_time >
arrival { continue } }` (lines 114–118 of `src/dijkstra.rs`). -/
def tooLate (arrival : ℕ) : Option ℕ → Bool
  | some et => arrival < et
  | none => false

/-- One edge relaxation, the body of the `for edge in graph.neighbors(..)`
loop of `src/dijkstra.rs` (lines 101–148).  `cost` is the absolute clock
time at the current node.  Result `none` models a panic (a failed
`HashMap::get(..).unwrap()`); `some none` means the edge is skipped;
`some (some st)` means `st` is pushed onto the heap.  Note that the
argument of `unwrap_or` on line 120 is evaluated eagerly in Rust, so the
coordinate lookups run even when `end_time` is present. -/
def relaxEdge (g : DGraph) (dist : ℚ × ℚ → ℚ × ℚ → ℚ) (arrival : ℕ)
    (visited : List ℤ) (cost : ℕ) (e : DEdge) : Option (Option State) :=
  if tooEarly cost e.start_time then some none
  else
    let new_cost := e.start_time.getD cost
    if tooLate arrival e.end_time then some none
    else
      match (match e.traversal_time with
             | some t => some (new_cost + t)
             | none =>
               match lookupA g.nodes e.origin, lookupA g.nodes e.destination with
               | some sn, some en =>
                 some (new_cost +
                   ratToU32 (ratDiv (dist (sn.x, sn.y) (en.x, en.y)) WALKING_SPEED))
               | _, _ => none) with
      | none => none
      | some fallback =>
        let end_time := e.end_time.getD fallback
        if e.destination ∈ visited then some none
        else
          match lookupA g.nodes e.destination with
          | none => none
          | some dn => some (some ⟨end_time, e.destination, (dn.x, dn.y)⟩)

/-- Relax a list of edges in order, collecting the states to push;
propagates a panic (`none`) from any single relaxation. -/
def relaxAll (g : DGraph) (dist : ℚ × ℚ → ℚ × ℚ → ℚ) (arrival : ℕ)
    (visited : List ℤ) (cost : ℕ) : List DEdge → Option (List State)
  | [] => some []
  | e :: es =>
    match relaxEdge g dist arrival visited cost e with
    | none => none
    | some r =>
      match relaxAll g dist arrival visited cost es with
      | none => none
      | some rest =>
        some (match r with
              | none => rest
              | some st => st :: rest)

/-- An entry of the returned reachability structure: the settled node id
(ghost observation identifying the contributing node), the coordinates and
the elapsed duration stored by `reachable_coords.add` in `src/dijkstra.rs`. -/
abbrev Entry : Type := ℤ × (ℚ × ℚ) × ℕ

/-- The `while let Some(State {..}) = queue.pop()` loop of `src/dijkstra.rs`
(lines 83–150), with explicit fuel for termination; `none` models a panic
or fuel exhaustion, `some acc` the `Ok(reachable_coords)` return.
`startT` is `start_time` (the earliest departure); the `cost - start_time`
subtraction panics (is modelled `none`) when it would underflow `u32`. -/
def dloop (g : DGraph) (dist : ℚ × ℚ → ℚ × ℚ → ℚ)
    (arrival duration startT : ℕ) :
    ℕ → List State → List ℤ → List Entry → Option (List Entry)
  | fuel, queue, visited, acc =>
    match popBest queue with
    | none => some acc
    | some (st, rest) =>
      match fuel with
      | 0 => none
      | fuel + 1 =>
        if st.position ∈ visited then
          dloop g dist arrival duration startT fuel rest visited acc
        else
          let visited' := st.position :: visited
          if st.cost < startT then none
          else
            let dur := st.cost - startT
            if dur ≤ duration then
              let acc' := acc ++ [(st.position, st.coordinates, dur)]
              match lookupA g.adjacency st.position with
              | none => none
              | some edges =>
                match relaxAll g dist arrival visited' st.cost edges with
                | none => none
                | some pushed =>
                  dloop g dist arrival duration startT fuel
                    (rest ++ pushed) visited' acc'
            else
              dloop g dist arrival duration startT fuel rest visited' acc

/-- The wrapping `u32` subtraction
`arrival_time.num_seconds_from_midnight() - duration` on line 61 of
`src/dijkstra.rs` (release-mode semantics; debug mode panics instead when
it underflows). -/
def start_time_u32 (arrival duration : ℕ) : ℕ :=
  (arrival + (2 ^ 32 - duration)) % 2 ^ 32

/-- `dijkstra` from `src/dijkstra.rs`.  `arrival` is
`arrival_time.num_seconds_from_midnight()`; `fuel` bounds the number of
loop iterations; `dist` abstracts `haversine_distance`.  Result `none`
models a panic (including the `u32` underflow of line 61 in debug mode and
the `expect` on an empty spatial index), `some (.error _)` the
`StartTooFar` failure, and `some (.ok _)` a successful run. -/
def dijkstra (g : DGraph) (dist : ℚ × ℚ → ℚ × ℚ → ℚ)
    (tree : List ((ℚ × ℚ) × ℤ)) (start_coords : ℚ × ℚ)
    (arrival duration : ℕ) (fuel : ℕ) :
    Option (Except String (List Entry)) :=
  if arrival < duration then none
  else
    let startT := arrival - duration
    match nearest_point dist tree start_coords with
    | none => none
    | some (distance, start_node) =>
      if MAX_DISTANCE < distance then some (.error "Start node is too far away")
      else
        let start_cost := startT + ratToU32 (ratDiv distance WALKING_SPEED)
        (dloop g dist arrival duration startT fuel
          [⟨start_cost, start_node, start_coords⟩] [] []).map .ok

end Dij

namespace Builder

/-- `NodeId` from the graph module used by `src/graph_builder.rs`: a tagged
identifier, `Osm(i64)` for street nodes and `Gtfs(string)` for transit stops
(type declared outside `src/`; variants per the spec's data model §3 and the
builder's use sites). -/
inductive NodeId : Type
  | osm (id : ℤ)
  | gtfs (id : String)
deriving DecidableEq

/-- `WalkingEdge` over `NodeId` (per spec §3 and builder use sites). -/
structure WalkingEdge where
  origin : NodeId
  destination : NodeId
  traversal_time : Option ℕ
deriving DecidableEq

/-- `TransportEdge` over `NodeId` (per spec §3 and builder use sites). -/
structure TransportEdge where
  origin : NodeId
  destination : NodeId
  start_time : ℕ
  end_time : ℕ
deriving DecidableEq

/-- `Edge`: the sum of the two edge kinds. -/
inductive Edge : Type
  | walking (e : WalkingEdge)
  | transport (e : TransportEdge)
deriving DecidableEq

/-- `Edge::origin()`. -/
def Edge.origin : Edge → NodeId
  | .walking e => e.origin
  | .transport e => e.origin

/-- `Edge::dest()`. -/
def Edge.dest : Edge → NodeId
  | .walking e => e.destination
  | .transport e => e.destination

/-- `Node { lon, lat }` stored in the builder's node map. -/
structure GNode where
  lon : ℚ
  lat : ℚ
deriving DecidableEq

/-- `GraphBuilder` from `src/graph_builder.rs`: node map, adjacency map and
spatial index. -/
structure GraphBuilder where
  nodes : List (NodeId × GNode)
  adjacency : List (NodeId × List Edge)
  tree : List ((ℚ × ℚ) × NodeId)
deriving DecidableEq

/-- `GraphBuilder::new()` / `Default`. -/
def GraphBuilder.new : GraphBuilder := ⟨[], [], []⟩

/-- `GraphBuilder::add_edge` (lines 34–37): append the edge to the origin's
adjacency list, creating it when absent. -/
def GraphBuilder.add_edge (b : GraphBuilder) (e : Edge) : GraphBuilder :=
  { b with adjacency := pushEntry b.adjacency e.origin e }

/-- `GraphBuilder::add_node` (lines 39–42): insert (or overwrite) the node's
coordinates. -/
def GraphBuilder.add_node (b : GraphBuilder) (index : NodeId) (x y : ℚ) :
    GraphBuilder :=
  { b with nodes := insertA b.nodes index ⟨x, y⟩ }

/-- `GraphBuilder::clear_edgeless_nodes` (lines 196–198): retain exactly the
nodes that have an adjacency entry. -/
def GraphBuilder.clear_edgeless_nodes (b : GraphBuilder) : GraphBuilder :=
  { b with nodes := b.nodes.filter fun kv => (lookupA b.adjacency kv.1).isSome }

/-- An element of the OSM input stream, as consumed by `load_osm`: a tagged
plain node, a way with its ordered node references, a packed dense node, or
anything else (ignored). -/
inductive OsmElement : Type
  | node (id : ℤ) (lon lat : ℚ) (tags : List (String × String))
  | way (refs : List ℤ) (tags : List (String × String))
  | dense (id : ℤ) (lon lat : ℚ)
  | other
deriving DecidableEq

/-- `is_walkable_node` from `src/graph_builder.rs` (lines 201–205): true iff
SOME tag has key `foot` and a value other than `no`. -/
def is_walkable_node (tags : List (String × String)) : Bool :=
  tags.any fun kv => kv.1 == "foot" && kv.2 != "no"

/-- The `highway` values rejected by `is_walkable_way`. -/
def unwalkableHighway : List String :=
  ["abandoned", "bus_guideway", "construction", "cycleway", "motor", "no",
   "planned", "platform", "proposed", "raceway", "razed"]

/-- `is_walkable_way` from `src/graph_builder.rs` (lines 207–241): a fold
over the tags updating the three flags, exactly as the Rust loop does
(later `highway` tags overwrite the first flag). -/
def is_walkable_way (tags : List (String × String)) : Bool :=
  let f := tags.foldl
    (fun (st : Bool × Bool × Bool) kv =>
      if kv.1 = "highway" then
        (!(unwalkableHighway.contains kv.2), st.2.1, st.2.2)
      else if kv.1 = "foot" ∧ kv.2 = "no" then
        (st.1, false, st.2.2)
      else if kv.1 = "service" ∧ kv.2 = "private" then
        (st.1, st.2.1, false)
      else st)
    (false, true, true)
  f.1 && f.2.1 && f.2.2

/-- The loop body for one consecutive reference pair of an accepted way
(lines 59–73): a walking edge in each direction, `traversal_time = None`. -/
def wayPairStep (b : GraphBuilder) (p : ℤ × ℤ) : GraphBuilder :=
  (b.add_edge (.walking ⟨.osm p.1, .osm p.2, none⟩)).add_edge
    (.walking ⟨.osm p.2, .osm p.1, none⟩)

/-- The per-element body of the `reader.for_each` closure in `load_osm`
(lines 46–84); `refs.zip refs.tail` is `refs.windows(2)`. -/
def processElement (b : GraphBuilder) : OsmElement → GraphBuilder
  | .node id lon lat tags =>
    if is_walkable_node tags then b.add_node (.osm id) lon lat else b
  | .way refs tags =>
    if is_walkable_way tags then (refs.zip refs.tail).foldl wayPairStep b
    else b
  | .dense id lon lat => b.add_node (.osm id) lon lat
  | .other => b

/-- `GraphBuilder::load_osm` (lines 44–95) on a list of input elements:
process every element, drop edgeless nodes, then add every surviving node
to the spatial index. -/
def load_osm (elems : List OsmElement) (b : GraphBuilder) : GraphBuilder :=
  let b := elems.foldl processElement b
  let b := b.clear_edgeless_nodes
  { b with
    tree := b.tree ++ b.nodes.map fun kv => ((kv.2.lon, kv.2.lat), kv.1) }

/-- A GTFS pathway, as consumed by `load_gtfs`. -/
structure Pathway where
  to_stop_id : String
  bidirectional : Bool
  traversal_time : Option ℕ
deriving DecidableEq

/-- A GTFS stop, as consumed by `load_gtfs`. -/
structure Stop where
  id : String
  longitude : Option ℚ
  latitude : Option ℚ
  pathways : List Pathway
deriving DecidableEq

/-- A GTFS stop-time, as consumed by `load_gtfs`. -/
structure StopTime where
  stop_id : String
  arrival_time : Option ℕ
  departure_time : Option ℕ
deriving DecidableEq

/-- A GTFS trip: its ordered stop-times. -/
structure Trip where
  stop_times : List StopTime
deriving DecidableEq

/-- The GTFS archive: its stops (in iteration order) and trips. -/
structure Gtfs where
  stops : List Stop
  trips : List Trip
deriving DecidableEq

/-- The per-stop body of the first loop of `load_gtfs` (lines 104–154):
snap the stop to the nearest node of the CURRENT spatial index, add the
stop node, the bidirectional snap edges, and the pathway edges.  `none`
models an error return (missing coordinates or empty index). -/
def processStop (dist : ℚ × ℚ → ℚ × ℚ → ℚ) (b : GraphBuilder) (stp : Stop) :
    Option GraphBuilder := do
  let sid := NodeId.gtfs stp.id
  let lon ← stp.longitude
  let lat ← stp.latitude
  let (distance, osm_node) ← nearest_point dist b.tree (lon, lat)
  let b := b.add_node sid lon lat
  let traversal_time := ratToU32 (ratDiv distance WALKING_SPEED)
  let b := b.add_edge (.walking ⟨sid, osm_node, some traversal_time⟩)
  let b := b.add_edge (.walking ⟨osm_node, sid, some traversal_time⟩)
  let b := stp.pathways.foldl
    (fun b p =>
      let toId := NodeId.gtfs p.to_stop_id
      if p.bidirectional then
        (b.add_edge (.walking ⟨sid, toId, p.traversal_time⟩)).add_edge
          (.walking ⟨toId, sid, p.traversal_time⟩)
      else
        b.add_edge (.walking ⟨sid, toId, p.traversal_time⟩))
    b
  pure b

/-- The per-trip body of the second loop of `load_gtfs` (lines 156–172):
one transport edge per consecutive stop-time pair. -/
def processTrip (b : GraphBuilder) (t : Trip) : Option GraphBuilder :=
  (t.stop_times.zip t.stop_times.tail).foldlM
    (fun (b : GraphBuilder) w => do
      let dep ← w.1.departure_time
      let arr ← w.2.arrival_time
      pure (b.add_edge (.transport ⟨.gtfs w.1.stop_id, .gtfs w.2.stop_id, dep, arr⟩)))
    b

/-- The per-stop body of the FINAL loop of `load_gtfs` (lines 174–183):
add the stop to the spatial index. -/
def addStopToTree (b : GraphBuilder) (stp : Stop) : Option GraphBuilder := do
  let lon ← stp.longitude
  let lat ← stp.latitude
  pure { b with tree := b.tree ++ [((lon, lat), NodeId.gtfs stp.id)] }

/-- `GraphBuilder::load_gtfs` (lines 97–186): snap every stop, add every
trip's transport edges, and only then add the stops to the spatial index. -/
def load_gtfs (dist : ℚ × ℚ → ℚ × ℚ → ℚ) (b : GraphBuilder) (g : Gtfs) :
    Option GraphBuilder := do
  let b ← g.stops.foldlM (processStop dist) b
  let b ← g.trips.foldlM processTrip b
  let b ← g.stops.foldlM addStopToTree b
  pure b

end Builder

namespace OldGraph

/-- `WalkingEdge` from `src/graph.rs` (string node ids, `Arc<String>`). -/
structure WalkingEdge where
  origin : String
  destination : String
  traversal_time : Option ℕ
deriving DecidableEq

/-- `TransportEdge` from `src/graph.rs`. -/
structure TransportEdge where
  origin : String
  destination : String
  start_time : ℕ
  end_time : ℕ
deriving DecidableEq

/-- `Edge` from `src/graph.rs`. -/
inductive Edge : Type
  | walking (e : WalkingEdge)
  | transport (e : TransportEdge)
deriving DecidableEq

/-- `Edge::origin()` from `src/graph.rs`. -/
def Edge.origin : Edge → String
  | .walking e => e.origin
  | .transport e => e.origin

/-- `Node` from `src/graph.rs` (lines 40–54): coordinates plus the node's
outgoing edges; `Default` is `lon = 0.0, lat = 0.0, edges = vec![]`. -/
structure Node where
  lon : ℚ
  lat : ℚ
  edges : List Edge
deriving DecidableEq

/-- `Node::default()`. -/
def Node.default : Node := ⟨0, 0, []⟩

/-- `Graph` from `src/graph.rs` (lines 56–68). -/
structure Graph where
  nodes : List (String × Node)
  tree : List ((ℚ × ℚ) × String)
deriving DecidableEq

/-- `Graph::default()`. -/
def Graph.default : Graph := ⟨[], []⟩

/-- `self.nodes.entry(origin).or_default().edges.push(edge)`: append an edge
under a key, creating the entry with `Node::default()` coordinates when the
key is absent. -/
def pushEdgeEntry : List (String × Node) → String → Edge → List (String × Node)
  | [], k, e => [(k, { Node.default with edges := [e] })]
  | (k', n) :: rest, k, e =>
    if k' = k then (k', { n with edges := n.edges ++ [e] }) :: rest
    else (k', n) :: pushEdgeEntry rest k e

/-- `self.nodes.entry(index).or_default()` followed by setting `lon`/`lat`
(keeping any edges already pushed). -/
def setCoordEntry : List (String × Node) → String → ℚ → ℚ → List (String × Node)
  | [], k, x, y => [(k, { Node.default with lon := x, lat := y })]
  | (k', n) :: rest, k, x, y =>
    if k' = k then (k', { n with lon := x, lat := y }) :: rest
    else (k', n) :: setCoordEntry rest k x y

/-- `Graph::add_edge` from `src/graph.rs` (lines 71–74). -/
def Graph.add_edge (g : Graph) (e : Edge) : Graph :=
  { g with nodes := pushEdgeEntry g.nodes e.origin e }

/-- `Graph::add_node` from `src/graph.rs` (lines 76–81). -/
def Graph.add_node (g : Graph) (index : String) (x y : ℚ) : Graph :=
  { g with nodes := setCoordEntry g.nodes index x y }

/-- `Graph::clear_edgeless_nodes` from `src/graph.rs` (lines 91–93). -/
def Graph.clear_edgeless_nodes (g : Graph) : Graph :=
  { g with nodes := g.nodes.filter fun kv => !kv.2.edges.isEmpty }

/-- The loop body for one consecutive reference pair of an accepted way in
`build_graph_osm` (lines 123–137 of `src/graph.rs`): the forward and
backward walking edges, ids stringified. -/
def wayPairStep (g : Graph) (p : ℤ × ℤ) : Graph :=
  (g.add_edge (.walking ⟨toString p.1, toString p.2, none⟩)).add_edge
    (.walking ⟨toString p.2, toString p.1, none⟩)

/-- The per-element body of the `reader.for_each` closure of
`build_graph_osm` in `src/graph.rs` (lines 110–148); ids are stringified,
`prev_node`/`curr_node` iteration is the consecutive-pairs fold. -/
def processElement (g : Graph) : Builder.OsmElement → Graph
  | .node id lon lat tags =>
    if Builder.is_walkable_node tags then g.add_node (toString id) lon lat else g
  | .way refs tags =>
    if Builder.is_walkable_way tags then (refs.zip refs.tail).foldl wayPairStep g
    else g
  | .dense id lon lat => g.add_node (toString id) lon lat
  | .other => g

/-- The OSM phase of `build_graph_osm` in `src/graph.rs` (lines 96–158):
ingest the elements, prune edgeless nodes, then insert every remaining node
into the spatial index at its stored coordinates. -/
def build_graph_osm_phase1 (elems : List Builder.OsmElement) : Graph :=
  let g := elems.foldl processElement Graph.default
  let g := g.clear_edgeless_nodes
  { g with
    tree := g.tree ++ g.nodes.map fun kv => ((kv.2.lon, kv.2.lat), kv.1) }

end OldGraph

namespace Geo

/-- `geojson::Feature` as constructed by `geometry_to_geojson` in
`src/isochrone.rs` (lines 128–140): only the geometry field is populated,
`bbox`, `id`, `properties` and `foreign_members` are all `None`.  The
geometry itself (a `geos::Geometry`) is abstracted by the type parameter. -/
structure Feature (α : Type) where
  geometry : Option α
deriving DecidableEq

/-- `geojson::GeoJson`: the two output shapes relevant here — a single bare
`Feature` or a `FeatureCollection`. -/
inductive GeoJson (α : Type) : Type
  | feature (f : Feature α)
  | featureCollection (features : List (Feature α))
deriving DecidableEq

/-- Whether a `GeoJson` value is a `FeatureCollection`. -/
def GeoJson.isFeatureCollection {α : Type} : GeoJson α → Bool
  | .feature _ => false
  | .featureCollection _ => true

/-- `geometry_to_geojson` from `src/isochrone.rs` (lines 128–140): wrap the
converted geometry in a single bare `Feature` (serialization of the result
string is not modelled; the emitted structure is). -/
def geometry_to_geojson {α : Type} (geometry : α) : GeoJson α :=
  .feature { geometry := some geometry }

end Geo

namespace Builder

/-- `i` is referenced by some accepted (walkable) way of the input: it is a
member of some consecutive pair of that way's node references. -/
def wayRef (elems : List OsmElement) (i : ℤ) : Prop :=
  ∃ refs tags, OsmElement.way refs tags ∈ elems ∧ is_walkable_way tags = true ∧
    ∃ p ∈ refs.zip refs.tail, p.1 = i ∨ p.2 = i

/-- `i` occurs in the input as a node element that `load_osm` accepts into
the node map: a tagged node passing `is_walkable_node`, or a dense node
(always accepted). -/
def acceptedNode (elems : List OsmElement) (i : ℤ) : Prop :=
  (∃ lon lat tags, OsmElement.node i lon lat tags ∈ elems ∧
     is_walkable_node tags = true) ∨
  ∃ lon lat, OsmElement.dense i lon lat ∈ elems

/-- Some edge of the adjacency structure equals `e`. -/
def edgeIn (adj : List (NodeId × List Edge)) (e : Edge) : Prop :=
  ∃ kes ∈ adj, e ∈ kes.2

end Builder

namespace OldGraph

/-- The stringified id `key` appears in a consecutive reference pair of some
accepted way (hence is pushed as an edge origin by `build_graph_osm`). -/
def wayRefO (elems : List Builder.OsmElement) (key : String) : Prop :=
  ∃ refs tags, Builder.OsmElement.way refs tags ∈ elems ∧
    Builder.is_walkable_way tags = true ∧
    ∃ p ∈ refs.zip refs.tail, toString p.1 = key ∨ toString p.2 = key

/-- The stringified id `key` is passed to `add_node` by `build_graph_osm`:
it occurs as an accepted tagged node or as a dense node. -/
def addedNodeO (elems : List Builder.OsmElement) (key : String) : Prop :=
  (∃ i lon lat tags, Builder.OsmElement.node i lon lat tags ∈ elems ∧
     Builder.is_walkable_node tags = true ∧ toString i = key) ∨
  ∃ i lon lat, Builder.OsmElement.dense i lon lat ∈ elems ∧ toString i = key

end OldGraph

/-! Concrete fixtures used by counterexamples and witnesses. -/

/-- A two-node graph for `dijkstra`: node 1 connected to node 2 by a walking
edge of known traversal time 5. -/
def exG : Dij.DGraph :=
  { nodes := [(1, ⟨0, 0⟩), (2, ⟨0, 0⟩)],
    adjacency := [(1, [⟨1, 2, none, none, some 5⟩]), (2, [])] }

/-- A trivial distance function (all distances 0). -/
def exDist : ℚ × ℚ → ℚ × ℚ → ℚ := fun _ _ => 0

/-- A constant distance function at 501 m (beyond `MAX_DISTANCE`). -/
def exDistFar : ℚ × ℚ → ℚ × ℚ → ℚ := fun _ _ => 501

/-- A spatial index holding node 1 at the origin. -/
def exTree : List ((ℚ × ℚ) × ℤ) := [((0, 0), 1)]

/-- A transport edge that departs in time (at 100) but arrives at 1000,
after the query's arrival time used in the counterexample. -/
def exLateEdge : Dij.DEdge := ⟨1, 2, some 100, some 1000, none⟩

/-- A builder state as left by street ingest: one street node, already in
the spatial index. -/
def exB6 : Builder.GraphBuilder :=
  { nodes := [(.osm 1, ⟨0, 0⟩)],
    adjacency := [(.osm 1, [])],
    tree := [((0, 0), .osm 1)] }

/-- A GTFS stop at (5, 5) with no pathways. -/
def exStop1 : Builder.Stop := ⟨"s1", some 5, some 5, []⟩

/-- An OSM input consisting of a single accepted way over ids 1 and 2,
with no node elements at all. -/
def exElemsWayOnly : List Builder.OsmElement :=
  [.way [1, 2] [("highway", "residential")]]

/-- An OSM input with the same way plus dense nodes for both referenced
ids. -/
def exElemsComplete : List Builder.OsmElement :=
  [.way [1, 2] [("highway", "residential")], .dense 1 0 0, .dense 2 0 0]

/-! ## Theorems -/

section MapLemmas

variable {α β : Type} [DecidableEq α]

/-- `pushEntry` creates its key. -/
theorem lookupA_pushEntry_self (m : List (α × List β)) (k : α) (v : β) :
    (lookupA (pushEntry m k v) k).isSome := by
  induction m with
  | nil => simp [pushEntry, lookupA]
  | cons kv rest ih =>
    obtain ⟨k', vs⟩ := kv
    by_cases h : k' = k
    · subst h
      simp [pushEntry, lookupA]
    · rw [pushEntry, if_neg h, lookupA, if_neg h]
      exact ih

/-- `pushEntry` preserves every present key. -/
theorem lookupA_pushEntry_mono (m : List (α × List β)) (k0 : α) (v : β)
    (k : α) :
    (lookupA m k).isSome → (lookupA (pushEntry m k0 v) k).isSome := by
  induction m with
  | nil => simp [lookupA]
  | cons kv rest ih =>
    obtain ⟨k', vs⟩ := kv
    intro h
    by_cases hk : k' = k0
    · subst hk
      rw [pushEntry, if_pos rfl]
      rw [lookupA] at h ⊢
      by_cases hkk : k' = k
      · rw [if_pos hkk]
        simp
      · rw [if_neg hkk] at h ⊢
        exact h
    · rw [pushEntry, if_neg hk]
      rw [lookupA] at h ⊢
      by_cases hkk : k' = k
      · rw [if_pos hkk]
        simp
      · rw [if_neg hkk] at h ⊢
        exact ih h

/-- `insertA` creates its key. -/
theorem lookupA_insertA_self (m : List (α × β)) (k : α) (v : β) :
    lookupA (insertA m k v) k = some v := by
  induction m with
  | nil => simp [insertA, lookupA]
  | cons kv rest ih =>
    obtain ⟨k', v'⟩ := kv
    by_cases h : k' = k
    · subst h
      simp [insertA, lookupA]
    · rw [insertA, if_neg h, lookupA, if_neg h]
      exact ih

/-- `insertA` preserves every present key. -/
theorem lookupA_insertA_mono (m : List (α × β)) (k0 : α) (v : β) (k : α) :
    (lookupA m k).isSome → (lookupA (insertA m k0 v) k).isSome := by
  induction m with
  | nil => simp [lookupA]
  | cons kv rest ih =>
    obtain ⟨k', v'⟩ := kv
    intro h
    rw [lookupA] at h
    by_cases hk : k' = k0
    · rw [insertA, if_pos hk, lookupA]
      by_cases hkk : k0 = k
      · rw [if_pos hkk]
        simp
      · rw [if_neg hkk]
        rw [if_neg (fun hh => hkk (hk ▸ hh))] at h
        exact h
    · rw [insertA, if_neg hk, lookupA]
      by_cases hkk : k' = k
      · rw [if_pos hkk]
        simp
      · rw [if_neg hkk]
        rw [if_neg hkk] at h
        exact ih h

/-- Filtering by a key-only predicate commutes with lookup. -/
theorem lookupA_filter_key (p : α → Bool) (l : List (α × β)) (k : α)
    (hp : p k = true) (v : β) (hl : lookupA l k = some v) :
    lookupA (l.filter fun kv => p kv.1) k = some v := by
  induction l with
  | nil => simp [lookupA] at hl
  | cons kv rest ih =>
    obtain ⟨k', v'⟩ := kv
    rw [lookupA] at hl
    by_cases hkk : k' = k
    · subst hkk
      rw [if_pos rfl] at hl
      rw [List.filter_cons, if_pos (by simpa using hp)]
      rw [lookupA, if_pos rfl]
      exact hl
    · rw [if_neg hkk] at hl
      rw [List.filter_cons]
      by_cases hpk : p k'
      · rw [if_pos (by simpa using hpk)]
        rw [lookupA, if_neg hkk]
        exact ih hl
      · rw [if_neg (by simpa using hpk)]
        exact ih hl

/-- A successful lookup is a membership. -/
theorem lookupA_mem (l : List (α × β)) (k : α) (v : β)
    (h : lookupA l k = some v) : (k, v) ∈ l := by
  induction l with
  | nil => simp [lookupA] at h
  | cons kv rest ih =>
    obtain ⟨k', v'⟩ := kv
    rw [lookupA] at h
    by_cases hkk : k' = k
    · subst hkk
      rw [if_pos rfl] at h
      rw [Option.some.injEq] at h
      subst h
      exact List.mem_cons_self _ _
    · rw [if_neg hkk] at h
      exact List.mem_cons_of_mem _ (ih h)

end MapLemmas

/-- Loop invariant of `dloop`: every entry the loop adds to the
reachability accumulator passes the `current_duration <= duration` check,
so if every entry already accumulated is within budget, so is every entry
of the final result. -/
theorem dloop_entries_le (g : Dij.DGraph) (dist : ℚ × ℚ → ℚ × ℚ → ℚ)
    (arrival duration startT : ℕ) :
    ∀ (fuel : ℕ) (queue : List Dij.State) (visited : List ℤ)
      (acc res : List Dij.Entry),
      (∀ ent ∈ acc, ent.2.2 ≤ duration) →
      Dij.dloop g dist arrival duration startT fuel queue visited acc = some res →
      ∀ ent ∈ res, ent.2.2 ≤ duration := by
  intro fuel
  induction fuel with
  | zero =>
    intro queue visited acc res hacc hrun
    rw [Dij.dloop] at hrun
    cases hpop : Dij.popBest queue with
    | none =>
      rw [hpop] at hrun
      simp only [Option.some.injEq] at hrun
      subst hrun
      exact hacc
    | some p =>
      rw [hpop] at hrun
      simp at hrun
  | succ fuel ih =>
    intro queue visited acc res hacc hrun
    rw [Dij.dloop] at hrun
    cases hpop : Dij.popBest queue with
    | none =>
      rw [hpop] at hrun
      simp only [Option.some.injEq] at hrun
      subst hrun
      exact hacc
    | some p =>
      obtain ⟨st, rest⟩ := p
      rw [hpop] at hrun
      dsimp only at hrun
      by_cases hv : st.position ∈ visited
      · rw [if_pos hv] at hrun
        exact ih rest visited acc res hacc hrun
      · rw [if_neg hv] at hrun
        by_cases hu : st.cost < startT
        · rw [if_pos hu] at hrun
          simp at hrun
        · rw [if_neg hu] at hrun
          by_cases hdur : st.cost - startT ≤ duration
          · rw [if_pos hdur] at hrun
            cases hadj : lookupA g.adjacency st.position with
            | none =>
              rw [hadj] at hrun
              simp at hrun
            | some edges =>
              rw [hadj] at hrun
              dsimp only at hrun
              cases hrel : Dij.relaxAll g dist arrival (st.position :: visited)
                  st.cost edges with
              | none =>
                rw [hrel] at hrun
                simp at hrun
              | some pushed =>
                rw [hrel] at hrun
                dsimp only at hrun
                refine ih (rest ++ pushed) (st.position :: visited)
                  (acc ++ [(st.position, st.coordinates, st.cost - startT)])
                  res ?_ hrun
                intro ent hent
                rcases List.mem_append.mp hent with h | h
                · exact hacc ent h
                · simp only [List.mem_singleton] at h
                  subst h
                  exact hdur
          · rw [if_neg hdur] at hrun
            exact ih rest (st.position :: visited) acc res hacc hrun

/-- Loop invariant of `dloop`: positions recorded in the accumulator are
always in the visited set, and the visited-set guard ensures the recorded
positions stay pairwise distinct. -/
theorem dloop_positions_nodup (g : Dij.DGraph) (dist : ℚ × ℚ → ℚ × ℚ → ℚ)
    (arrival duration startT : ℕ) :
    ∀ (fuel : ℕ) (queue : List Dij.State) (visited : List ℤ)
      (acc res : List Dij.Entry),
      (∀ p ∈ acc.map (fun ent => ent.1), p ∈ visited) →
      (acc.map (fun ent => ent.1)).Nodup →
      Dij.dloop g dist arrival duration startT fuel queue visited acc = some res →
      (res.map (fun ent => ent.1)).Nodup := by
  intro fuel
  induction fuel with
  | zero =>
    intro queue visited acc res hsub hnd hrun
    rw [Dij.dloop] at hrun
    cases hpop : Dij.popBest queue with
    | none =>
      rw [hpop] at hrun
      simp only [Option.some.injEq] at hrun
      subst hrun
      exact hnd
    | some p =>
      rw [hpop] at hrun
      simp at hrun
  | succ fuel ih =>
    intro queue visited acc res hsub hnd hrun
    rw [Dij.dloop] at hrun
    cases hpop : Dij.popBest queue with
    | none =>
      rw [hpop] at hrun
      simp only [Option.some.injEq] at hrun
      subst hrun
      exact hnd
    | some p =>
      obtain ⟨st, rest⟩ := p
      rw [hpop] at hrun
      dsimp only at hrun
      by_cases hv : st.position ∈ visited
      · rw [if_pos hv] at hrun
        exact ih rest visited acc res hsub hnd hrun
      · rw [if_neg hv] at hrun
        by_cases hu : st.cost < startT
        · rw [if_pos hu] at hrun
          simp at hrun
        · rw [if_neg hu] at hrun
          by_cases hdur : st.cost - startT ≤ duration
          · rw [if_pos hdur] at hrun
            cases hadj : lookupA g.adjacency st.position with
            | none =>
              rw [hadj] at hrun
              simp at hrun
            | some edges =>
              rw [hadj] at hrun
              dsimp only at hrun
              cases hrel : Dij.relaxAll g dist arrival (st.position :: visited)
                  st.cost edges with
              | none =>
                rw [hrel] at hrun
                simp at hrun
              | some pushed =>
                rw [hrel] at hrun
                dsimp only at hrun
                refine ih (rest ++ pushed) (st.position :: visited)
                  (acc ++ [(st.position, st.coordinates, st.cost - startT)])
                  res ?_ ?_ hrun
                · intro q hq
                  simp only [List.map_append, List.map_cons, List.map_nil,
                    List.mem_append, List.mem_singleton] at hq
                  rcases hq with h | h
                  · exact List.mem_cons_of_mem _ (hsub q h)
                  · subst h
                    exact List.mem_cons_self _ _
                · rw [List.map_append]
                  simp only [List.map_cons, List.map_nil]
                  refine List.Nodup.append hnd (List.nodup_singleton _) ?_
                  intro q hq hq'
                  simp only [List.mem_singleton] at hq'
                  subst hq'
                  exact hv (hsub st.position hq)
          · rw [if_neg hdur] at hrun
            refine ih rest (st.position :: visited) acc res ?_ hnd hrun
            intro q hq
            exact List.mem_cons_of_mem _ (hsub q hq)

/-- Elimination principle for a successful `dijkstra` run: it implies the
start snapping succeeded within `MAX_DISTANCE` and the main loop ran from
the snapped start state to the returned result. -/
theorem dijkstra_ok_elim (g : Dij.DGraph) (dist : ℚ × ℚ → ℚ × ℚ → ℚ)
    (tree : List ((ℚ × ℚ) × ℤ)) (sc : ℚ × ℚ) (arrival duration fuel : ℕ)
    (res : List Dij.Entry) :
    Dij.dijkstra g dist tree sc arrival duration fuel = some (.ok res) →
    ∃ d n, nearest_point dist tree sc = some (d, n) ∧ ¬ MAX_DISTANCE < d ∧
      Dij.dloop g dist arrival duration (arrival - duration) fuel
        [⟨(arrival - duration) + ratToU32 (ratDiv d WALKING_SPEED), n, sc⟩]
        [] [] = some res := by
  intro h
  unfold Dij.dijkstra at h
  by_cases h1 : arrival < duration
  · rw [if_pos h1] at h
    simp at h
  · rw [if_neg h1] at h
    cases hn : nearest_point dist tree sc with
    | none =>
      rw [hn] at h
      simp at h
    | some p =>
      obtain ⟨d, n⟩ := p
      rw [hn] at h
      dsimp only at h
      by_cases h2 : MAX_DISTANCE < d
      · rw [if_pos h2] at h
        simp at h
      · rw [if_neg h2] at h
        rw [Option.map_eq_some'] at h
        obtain ⟨r, hr, hok⟩ := h
        rw [Except.ok.injEq] at hok
        subst hok
        exact ⟨d, n, rfl, h2, hr⟩

/-- C2: for every query that the search completes successfully, every entry
recorded in the returned reachability structure has elapsed cost at most
the duration budget. -/
theorem C2_budget :
    ∀ (g : Dij.DGraph) (dist : ℚ × ℚ → ℚ × ℚ → ℚ) (tree : List ((ℚ × ℚ) × ℤ))
      (sc : ℚ × ℚ) (arrival duration fuel : ℕ) (res : List Dij.Entry),
      Dij.dijkstra g dist tree sc arrival duration fuel = some (.ok res) →
      ∀ ent ∈ res, ent.2.2 ≤ duration := by
  intro g dist tree sc arrival duration fuel res h
  obtain ⟨d, n, _, _, hloop⟩ :=
    dijkstra_ok_elim g dist tree sc arrival duration fuel res h
  exact dloop_entries_le g dist arrival duration (arrival - duration) fuel
    _ _ _ res (by simp) hloop

/-- C2 (witness): the budget bound at one entry of a concrete successful
run (the entry for node 2, elapsed cost 5, budget 50). -/
theorem C2_witness :
    (((2 : ℤ), ((0 : ℚ), (0 : ℚ)), 5) : Dij.Entry).2.2 ≤ 50 :=
  C2_budget exG exDist exTree (0, 0) 100 50 10
    [((1 : ℤ), ((0 : ℚ), (0 : ℚ)), 0), (2, (0, 0), 5)] (by decide)
    ((2 : ℤ), ((0 : ℚ), (0 : ℚ)), 5) (by decide)

/-- C10: the visited set makes settling permanent — a successful run's
reachability structure contains at most one entry per graph node (its
positions are pairwise distinct), and an edge whose destination is already
in the visited set is never relaxed into a heap push. -/
theorem C10_settled_once :
    (∀ (g : Dij.DGraph) (dist : ℚ × ℚ → ℚ × ℚ → ℚ) (tree : List ((ℚ × ℚ) × ℤ))
       (sc : ℚ × ℚ) (arrival duration fuel : ℕ) (res : List Dij.Entry),
       Dij.dijkstra g dist tree sc arrival duration fuel = some (.ok res) →
       (res.map fun ent => ent.1).Nodup) ∧
    (∀ (g : Dij.DGraph) (dist : ℚ × ℚ → ℚ × ℚ → ℚ) (arrival : ℕ)
       (visited : List ℤ) (cost : ℕ) (e : Dij.DEdge) (st : Dij.State),
       e.destination ∈ visited →
       Dij.relaxEdge g dist arrival visited cost e ≠ some (some st)) := by
  constructor
  · intro g dist tree sc arrival duration fuel res h
    obtain ⟨d, n, _, _, hloop⟩ :=
      dijkstra_ok_elim g dist tree sc arrival duration fuel res h
    exact dloop_positions_nodup g dist arrival duration (arrival - duration)
      fuel _ _ _ res (by simp) (by simp) hloop
  · intro g dist arrival visited cost e st hmem heq
    unfold Dij.relaxEdge at heq
    by_cases h1 : Dij.tooEarly cost e.start_time
    · rw [if_pos h1] at heq
      simp at heq
    · rw [if_neg h1] at heq
      by_cases h2 : Dij.tooLate arrival e.end_time
      · rw [if_pos h2] at heq
        simp at heq
      · rw [if_neg h2] at heq
        dsimp only at heq
        cases htt : e.traversal_time with
        | some t =>
          rw [htt] at heq
          dsimp only at heq
          rw [if_pos hmem] at heq
          simp at heq
        | none =>
          rw [htt] at heq
          dsimp only at heq
          cases ho : lookupA g.nodes e.origin with
          | none =>
            rw [ho] at heq
            dsimp only at heq
            simp at heq
          | some sn =>
            cases hd : lookupA g.nodes e.destination with
            | none =>
              rw [ho, hd] at heq
              dsimp only at heq
              simp at heq
            | some dn =>
              rw [ho, hd] at heq
              dsimp only at heq
              rw [if_pos hmem] at heq
              simp at heq

/-- C10 (witness): the theorem applied to the concrete successful run of
`C2_witness`'s query, and to a concrete already-settled destination. -/
theorem C10_witness :
    (([((1 : ℤ), ((0 : ℚ), (0 : ℚ)), 0), (2, (0, 0), 5)].map
        fun ent => ent.1).Nodup) ∧
    Dij.relaxEdge exG exDist 500 [2] 50 ⟨1, 2, none, none, some 5⟩ ≠
      some (some ⟨55, 2, (0, 0)⟩) :=
  ⟨C10_settled_once.1 exG exDist exTree (0, 0) 100 50 10
     [((1 : ℤ), ((0 : ℚ), (0 : ℚ)), 0), (2, (0, 0), 5)] (by decide),
   C10_settled_once.2 exG exDist 500 [2] 50 ⟨1, 2, none, none, some 5⟩
     ⟨55, 2, (0, 0)⟩ (by decide)⟩

/-- C3: for every query with a nonempty spatial index (and a duration not
exceeding the arrival time, so that the start-time subtraction is sound),
the search snaps to the nearest node: if its distance exceeds 500 m the
search fails with the start-too-far error and returns no reachability map;
otherwise the run proceeds from that node with initial elapsed cost
`distance / walking_speed` (truncated to `u32`), i.e. with initial absolute
cost `earliest_departure + distance / walking_speed`. -/
theorem C3_start_snapping :
    ∀ (g : Dij.DGraph) (dist : ℚ × ℚ → ℚ × ℚ → ℚ) (tree : List ((ℚ × ℚ) × ℤ))
      (sc : ℚ × ℚ) (arrival duration fuel : ℕ) (d : ℚ) (n : ℤ),
      duration ≤ arrival →
      nearest_point dist tree sc = some (d, n) →
      (MAX_DISTANCE < d →
        Dij.dijkstra g dist tree sc arrival duration fuel =
          some (.error "Start node is too far away")) ∧
      (¬ MAX_DISTANCE < d →
        Dij.dijkstra g dist tree sc arrival duration fuel =
          (Dij.dloop g dist arrival duration (arrival - duration) fuel
            [⟨(arrival - duration) + ratToU32 (ratDiv d WALKING_SPEED), n, sc⟩]
            [] []).map .ok) := by
  intro g dist tree sc arrival duration fuel d n hdu hn
  unfold Dij.dijkstra
  rw [if_neg (by omega : ¬ arrival < duration), hn]
  dsimp only
  constructor
  · intro hfar
    rw [if_pos hfar]
  · intro hnear
    rw [if_neg hnear]

/-- C3 (witness): with every index node 501 m away, the query fails with
the start-too-far error. -/
theorem C3_witness :
    Dij.dijkstra exG exDistFar exTree (0, 0) 100 50 10 =
      some (.error "Start node is too far away") :=
  (C3_start_snapping exG exDistFar exTree (0, 0) 100 50 10 501 1
      (by decide) (by decide)).1 (by decide)

/-- `add_edge` never touches the spatial index. -/
theorem add_edge_tree (b : Builder.GraphBuilder) (e : Builder.Edge) :
    (b.add_edge e).tree = b.tree := rfl

/-- The pathway fold of `processStop` never touches the spatial index. -/
theorem pathFold_tree (sid : Builder.NodeId) :
    ∀ (ps : List Builder.Pathway) (b : Builder.GraphBuilder),
      (ps.foldl
        (fun b p =>
          let toId := Builder.NodeId.gtfs p.to_stop_id
          if p.bidirectional then
            (b.add_edge (.walking ⟨sid, toId, p.traversal_time⟩)).add_edge
              (.walking ⟨toId, sid, p.traversal_time⟩)
          else
            b.add_edge (.walking ⟨sid, toId, p.traversal_time⟩))
        b).tree = b.tree := by
  intro ps
  induction ps with
  | nil => intro b; rfl
  | cons p rest ih =>
    intro b
    rw [List.foldl_cons]
    rw [ih]
    by_cases hb : p.bidirectional
    · rw [if_pos hb]
      rfl
    · rw [if_neg hb]
      rfl

/-- `processStop` (the snapping of one stop) never touches the spatial
index: the stop is NOT inserted into the index at processing time. -/
theorem processStop_tree (dist : ℚ × ℚ → ℚ × ℚ → ℚ)
    (b : Builder.GraphBuilder) (stp : Builder.Stop)
    (b' : Builder.GraphBuilder) :
    Builder.processStop dist b stp = some b' → b'.tree = b.tree := by
  intro h
  unfold Builder.processStop at h
  obtain ⟨lon, hlon, h⟩ := Option.bind_eq_some.mp h
  obtain ⟨lat, hlat, h⟩ := Option.bind_eq_some.mp h
  obtain ⟨⟨d0, n0⟩, hnp, h⟩ := Option.bind_eq_some.mp h
  simp only [Option.pure_def, Option.some.injEq] at h
  subst h
  exact pathFold_tree _ _ _

/-- The whole stop-snapping phase of `load_gtfs` leaves the spatial index
exactly as street ingest left it. -/
theorem foldStops_tree (dist : ℚ × ℚ → ℚ × ℚ → ℚ) :
    ∀ (stops : List Builder.Stop) (b b' : Builder.GraphBuilder),
      List.foldlM (Builder.processStop dist) b stops = some b' →
      b'.tree = b.tree := by
  intro stops
  induction stops with
  | nil =>
    intro b b' h
    simp only [List.foldlM_nil, Option.pure_def, Option.some.injEq] at h
    subst h
    rfl
  | cons s rest ih =>
    intro b b' h
    rw [List.foldlM_cons] at h
    obtain ⟨b1, hb1, h⟩ := Option.bind_eq_some.mp h
    rw [ih b1 b' h, processStop_tree dist b s b1 hb1]

/-- `processTrip` (transport-edge insertion) never touches the spatial
index. -/
theorem processTrip_tree (b : Builder.GraphBuilder) (t : Builder.Trip)
    (b' : Builder.GraphBuilder) :
    Builder.processTrip b t = some b' → b'.tree = b.tree := by
  unfold Builder.processTrip
  generalize t.stop_times.zip t.stop_times.tail = pairs
  induction pairs generalizing b with
  | nil =>
    intro h
    simp only [List.foldlM_nil, Option.pure_def, Option.some.injEq] at h
    subst h
    rfl
  | cons w rest ih =>
    intro h
    rw [List.foldlM_cons] at h
    obtain ⟨b1, hb1, h⟩ := Option.bind_eq_some.mp h
    obtain ⟨dep, hdep, hb1⟩ := Option.bind_eq_some.mp hb1
    obtain ⟨arr, harr, hb1⟩ := Option.bind_eq_some.mp hb1
    simp only [Option.pure_def, Option.some.injEq] at hb1
    subst hb1
    exact (ih _ h).trans rfl

/-- The whole trip phase of `load_gtfs` never touches the spatial index. -/
theorem foldTrips_tree :
    ∀ (trips : List Builder.Trip) (b b' : Builder.GraphBuilder),
      List.foldlM Builder.processTrip b trips = some b' →
      b'.tree = b.tree := by
  intro trips
  induction trips with
  | nil =>
    intro b b' h
    simp only [List.foldlM_nil, Option.pure_def, Option.some.injEq] at h
    subst h
    rfl
  | cons t rest ih =>
    intro b b' h
    rw [List.foldlM_cons] at h
    obtain ⟨b1, hb1, h⟩ := Option.bind_eq_some.mp h
    rw [ih b1 b' h, processTrip_tree b t b1 hb1]

/-- The final loop of `load_gtfs` only appends to the spatial index. -/
theorem foldAddTree_subset :
    ∀ (stops : List Builder.Stop) (b b' : Builder.GraphBuilder),
      List.foldlM Builder.addStopToTree b stops = some b' →
      ∀ x ∈ b.tree, x ∈ b'.tree := by
  intro stops
  induction stops with
  | nil =>
    intro b b' h
    simp only [List.foldlM_nil, Option.pure_def, Option.some.injEq] at h
    subst h
    exact fun x hx => hx
  | cons s rest ih =>
    intro b b' h x hx
    rw [List.foldlM_cons] at h
    obtain ⟨b1, hb1, h⟩ := Option.bind_eq_some.mp h
    unfold Builder.addStopToTree at hb1
    obtain ⟨lon, hlon, hb1⟩ := Option.bind_eq_some.mp hb1
    obtain ⟨lat, hlat, hb1⟩ := Option.bind_eq_some.mp hb1
    simp only [Option.pure_def, Option.some.injEq] at hb1
    subst hb1
    exact ih _ b' h x (List.mem_append_left _ hx)

/-- In the final loop of `load_gtfs`, every stop's coordinates/id pair is
appended to the spatial index. -/
theorem foldAddTree_mem :
    ∀ (stops : List Builder.Stop) (b b' : Builder.GraphBuilder)
      (s : Builder.Stop), s ∈ stops →
      List.foldlM Builder.addStopToTree b stops = some b' →
      ∀ lon lat, s.longitude = some lon → s.latitude = some lat →
        ((lon, lat), Builder.NodeId.gtfs s.id) ∈ b'.tree := by
  intro stops
  induction stops with
  | nil =>
    intro b b' s hs
    simp at hs
  | cons s0 rest ih =>
    intro b b' s hs h lon lat hlon hlat
    rw [List.foldlM_cons] at h
    obtain ⟨b1, hb1, h⟩ := Option.bind_eq_some.mp h
    rcases List.mem_cons.mp hs with heq | hmem
    · subst heq
      unfold Builder.addStopToTree at hb1
      obtain ⟨lon0, hlon0, hb1⟩ := Option.bind_eq_some.mp hb1
      obtain ⟨lat0, hlat0, hb1⟩ := Option.bind_eq_some.mp hb1
      simp only [Option.pure_def, Option.some.injEq] at hb1
      subst hb1
      rw [hlon] at hlon0
      rw [hlat] at hlat0
      rw [Option.some.injEq] at hlon0 hlat0
      subst hlon0
      subst hlat0
      exact foldAddTree_subset rest _ b' h _
        (List.mem_append_right _ (List.mem_singleton.mpr rfl))
    · exact ih b1 b' s hmem h lon lat hlon hlat

/-- C6 (counterexample): a concrete builder state (one street node in the
index) and a concrete stop: after the stop is fully processed, the spatial
index is UNCHANGED and contains no entry for the stop — so a later stop's
nearest-node lookup cannot return it, contradicting the claim that each
stop is inserted into the index at the time it is processed. -/
theorem C6_counterexample :
    (Builder.processStop exDist exB6 exStop1).map
        (fun b => b.tree) = some exB6.tree ∧
    (Builder.NodeId.gtfs "s1") ∉ exB6.tree.map (fun ent => ent.2) := by
  decide

/-- C6 (amended): during transit ingest, stops are NOT inserted into the
spatial index while stops are being snapped — the whole snapping phase
leaves the index exactly as street ingest left it, so every stop's
nearest-node lookup sees only street-ingest entries and can never return
an earlier stop; the stops are appended to the index only in a final pass
after all stops are snapped and all trip edges added. -/
theorem C6_tree_deferred :
    (∀ (dist : ℚ × ℚ → ℚ × ℚ → ℚ) (b : Builder.GraphBuilder)
       (stops : List Builder.Stop) (b1 : Builder.GraphBuilder),
       List.foldlM (Builder.processStop dist) b stops = some b1 →
       b1.tree = b.tree) ∧
    (∀ (dist : ℚ × ℚ → ℚ × ℚ → ℚ) (b : Builder.GraphBuilder)
       (g : Builder.Gtfs) (b' : Builder.GraphBuilder),
       Builder.load_gtfs dist b g = some b' →
       ∀ s ∈ g.stops, ∀ lon lat, s.longitude = some lon →
         s.latitude = some lat →
         ((lon, lat), Builder.NodeId.gtfs s.id) ∈ b'.tree) := by
  constructor
  · intro dist b stops b1 h
    exact foldStops_tree dist stops b b1 h
  · intro dist b g b' h s hs lon lat hlon hlat
    unfold Builder.load_gtfs at h
    obtain ⟨b1, hb1, h⟩ := Option.bind_eq_some.mp h
    obtain ⟨b2, hb2, h⟩ := Option.bind_eq_some.mp h
    obtain ⟨b3, hb3, h⟩ := Option.bind_eq_some.mp h
    simp only [Option.pure_def, Option.some.injEq] at h
    subst h
    exact foldAddTree_mem g.stops b2 b3 s hs hb3 lon lat hlon hlat

/-- C6 (witness): at the concrete fixture, the snapping phase leaves the
index untouched, and the full `load_gtfs` run puts the stop in the index
at its coordinates. -/
theorem C6_witness :
    (∃ b1, List.foldlM (Builder.processStop exDist) exB6 [exStop1] = some b1 ∧
       b1.tree = exB6.tree) ∧
    (∃ b', Builder.load_gtfs exDist exB6 ⟨[exStop1], []⟩ = some b' ∧
       ((5, 5), Builder.NodeId.gtfs "s1") ∈ b'.tree) := by
  constructor
  · rcases hfold : List.foldlM (Builder.processStop exDist) exB6 [exStop1]
      with _ | b1
    · exact absurd hfold (by decide)
    · exact ⟨b1, rfl, C6_tree_deferred.1 exDist exB6 [exStop1] b1 hfold⟩
  · rcases hload : Builder.load_gtfs exDist exB6 ⟨[exStop1], []⟩ with _ | b'
    · exact absurd hload (by decide)
    · exact ⟨b', rfl,
        C6_tree_deferred.2 exDist exB6 ⟨[exStop1], []⟩ b' hload exStop1
          (by decide) 5 5 rfl rfl⟩

/-- C7 (counterexample): on a concrete geometry, the value emitted by
`geometry_to_geojson` is NOT a `FeatureCollection`, contradicting the
claim that the serialized output is a `FeatureCollection` of contour
polygons. -/
theorem C7_counterexample :
    (Geo.geometry_to_geojson (0 : ℕ)).isFeatureCollection = false := rfl

/-- C7 (amended): for every successful query, the GeoJSON value emitted by
`geometry_to_geojson` is a single bare `Feature` wrapping the geometry
(with no other fields populated), not a `FeatureCollection`. -/
theorem C7_single_feature :
    ∀ (α : Type) (g : α),
      Geo.geometry_to_geojson g = Geo.GeoJson.feature { geometry := some g } ∧
      (Geo.geometry_to_geojson g).isFeatureCollection = false :=
  fun _ _ => ⟨rfl, rfl⟩

/-- C8: the u32 subtraction `arrival_time.num_seconds_from_midnight() -
duration` on line 61 of `src/dijkstra.rs` is unguarded: when
`duration ≤ arrival` it computes the exact difference (no wraparound);
when `duration > arrival` it underflows (the wrapped value even exceeds
`arrival`), and the debug-semantics model of `dijkstra` accordingly
panics (`none`) on such queries. -/
theorem C8_start_time_underflow :
    ∀ arrival duration : ℕ, arrival < 2 ^ 32 → duration < 2 ^ 32 →
      (duration ≤ arrival →
        Dij.start_time_u32 arrival duration = arrival - duration) ∧
      (arrival < duration →
        Dij.start_time_u32 arrival duration = arrival + (2 ^ 32 - duration) ∧
        arrival < Dij.start_time_u32 arrival duration) ∧
      (arrival < duration → ∀ g dist tree sc fuel,
        Dij.dijkstra g dist tree sc arrival duration fuel = none) := by
  intro arrival duration ha hd
  refine ⟨?_, ?_, ?_⟩
  · intro h
    unfold Dij.start_time_u32
    omega
  · intro h
    unfold Dij.start_time_u32
    omega
  · intro h g dist tree sc fuel
    unfold Dij.dijkstra
    rw [if_pos h]

/-- C8 (witness): a concrete underflowing query (`arrival = 10`,
`duration = 20`): the wrapped start time exceeds the arrival time and
`dijkstra` panics. -/
theorem C8_witness :
    (10 < Dij.start_time_u32 10 20 ∧
     Dij.dijkstra exG exDist exTree (0, 0) 10 20 5 = none) :=
  ⟨((C8_start_time_underflow 10 20 (by decide) (by decide)).2.1 (by decide)).2,
   (C8_start_time_underflow 10 20 (by decide) (by decide)).2.2 (by decide)
     exG exDist exTree (0, 0) 5⟩

/-- C5 (counterexample): a node with an empty tag set (hence no `foot=no`
tag) is REJECTED by `is_walkable_node`, contradicting the claim that a
node is accepted iff its tag set does not contain `foot=no`. -/
theorem C5_counterexample :
    ¬ (Builder.is_walkable_node [] = true ↔
       (List.all ([] : List (String × String))
         fun kv => !(kv.1 == "foot" && kv.2 == "no")) = true) := by
  decide

/-- C5 (amended): during street ingest, a node element is accepted into the
graph if and only if its tag set contains SOME tag with key `foot` whose
value is not `no` (in particular, a node with no `foot` tag at all is
rejected). -/
theorem C5_node_filter :
    ∀ tags : List (String × String),
      Builder.is_walkable_node tags = true ↔
        ∃ kv ∈ tags, kv.1 = "foot" ∧ kv.2 ≠ "no" := by
  intro tags
  simp [Builder.is_walkable_node, List.any_eq_true]

/-- A value stored in a `pushEntry`-updated map of lists either was already
stored or is the pushed value. -/
theorem mem_pushEntry_val {α β : Type} [DecidableEq α] :
    ∀ (m : List (α × List β)) (k : α) (v x : β),
      (∃ kes ∈ pushEntry m k v, x ∈ kes.2) →
      (∃ kes ∈ m, x ∈ kes.2) ∨ x = v := by
  intro m
  induction m with
  | nil =>
    rintro k v x ⟨kes, hmem, hx⟩
    simp only [pushEntry, List.mem_singleton] at hmem
    subst hmem
    simp only [List.mem_singleton] at hx
    exact Or.inr hx
  | cons kv rest ih =>
    obtain ⟨k', vs⟩ := kv
    rintro k v x ⟨kes, hmem, hx⟩
    by_cases hk : k' = k
    · rw [pushEntry, if_pos hk] at hmem
      rcases List.mem_cons.mp hmem with heq | hmem'
      · subst heq
        rcases List.mem_append.mp hx with h | h
        · exact Or.inl ⟨(k', vs), List.mem_cons_self _ _, h⟩
        · simp only [List.mem_singleton] at h
          exact Or.inr h
      · exact Or.inl ⟨kes, List.mem_cons_of_mem _ hmem', hx⟩
    · rw [pushEntry, if_neg hk] at hmem
      rcases List.mem_cons.mp hmem with heq | hmem'
      · subst heq
        exact Or.inl ⟨(k', vs), List.mem_cons_self _ _, hx⟩
      · rcases ih k v x ⟨kes, hmem', hx⟩ with ⟨kes', hm, hx'⟩ | h
        · exact Or.inl ⟨kes', List.mem_cons_of_mem _ hm, hx'⟩
        · exact Or.inr h

/-- `wayPairStep` leaves the node map unchanged. -/
theorem wayFold_nodes (pairs : List (ℤ × ℤ)) :
    ∀ b : Builder.GraphBuilder,
      (pairs.foldl Builder.wayPairStep b).nodes = b.nodes := by
  induction pairs with
  | nil => intro b; rfl
  | cons p rest ih =>
    intro b
    rw [List.foldl_cons, ih]
    rfl

/-- `processElement` never deletes a node-map key. -/
theorem processElement_nodes_mono (el : Builder.OsmElement) :
    ∀ (b : Builder.GraphBuilder) (k : Builder.NodeId),
      (lookupA b.nodes k).isSome →
      (lookupA (Builder.processElement b el).nodes k).isSome := by
  intro b k h
  cases el with
  | node id lon lat tags =>
    rw [Builder.processElement]
    by_cases hw : Builder.is_walkable_node tags
    · rw [if_pos hw]
      exact lookupA_insertA_mono _ _ _ _ h
    · rw [if_neg hw]
      exact h
  | way refs tags =>
    rw [Builder.processElement]
    by_cases hw : Builder.is_walkable_way tags
    · rw [if_pos hw, wayFold_nodes]
      exact h
    · rw [if_neg hw]
      exact h
  | dense id lon lat =>
    rw [Builder.processElement]
    exact lookupA_insertA_mono _ _ _ _ h
  | other =>
    rw [Builder.processElement]
    exact h

/-- The OSM fold never deletes a node-map key. -/
theorem osmFold_nodes_mono (elems : List Builder.OsmElement) :
    ∀ (b : Builder.GraphBuilder) (k : Builder.NodeId),
      (lookupA b.nodes k).isSome →
      (lookupA (elems.foldl Builder.processElement b).nodes k).isSome := by
  induction elems with
  | nil => intro b k h; exact h
  | cons el rest ih =>
    intro b k h
    rw [List.foldl_cons]
    exact ih _ k (processElement_nodes_mono el b k h)

/-- `wayPairStep` never deletes an adjacency key. -/
theorem wayPairStep_adj_mono (b : Builder.GraphBuilder) (p : ℤ × ℤ)
    (k : Builder.NodeId) :
    (lookupA b.adjacency k).isSome →
    (lookupA (Builder.wayPairStep b p).adjacency k).isSome := by
  intro h
  exact lookupA_pushEntry_mono _ _ _ _ (lookupA_pushEntry_mono _ _ _ _ h)

/-- The pair fold never deletes an adjacency key. -/
theorem wayFold_adj_mono (pairs : List (ℤ × ℤ)) :
    ∀ (b : Builder.GraphBuilder) (k : Builder.NodeId),
      (lookupA b.adjacency k).isSome →
      (lookupA (pairs.foldl Builder.wayPairStep b).adjacency k).isSome := by
  induction pairs with
  | nil => intro b k h; exact h
  | cons p rest ih =>
    intro b k h
    rw [List.foldl_cons]
    exact ih _ k (wayPairStep_adj_mono b p k h)

/-- `processElement` never deletes an adjacency key. -/
theorem processElement_adj_mono (el : Builder.OsmElement) :
    ∀ (b : Builder.GraphBuilder) (k : Builder.NodeId),
      (lookupA b.adjacency k).isSome →
      (lookupA (Builder.processElement b el).adjacency k).isSome := by
  intro b k h
  cases el with
  | node id lon lat tags =>
    rw [Builder.processElement]
    by_cases hw : Builder.is_walkable_node tags
    · rw [if_pos hw]
      exact h
    · rw [if_neg hw]
      exact h
  | way refs tags =>
    rw [Builder.processElement]
    by_cases hw : Builder.is_walkable_way tags
    · rw [if_pos hw]
      exact wayFold_adj_mono _ b k h
    · rw [if_neg hw]
      exact h
  | dense id lon lat =>
    rw [Builder.processElement]
    exact h
  | other =>
    rw [Builder.processElement]
    exact h

/-- The OSM fold never deletes an adjacency key. -/
theorem osmFold_adj_mono (elems : List Builder.OsmElement) :
    ∀ (b : Builder.GraphBuilder) (k : Builder.NodeId),
      (lookupA b.adjacency k).isSome →
      (lookupA (elems.foldl Builder.processElement b).adjacency k).isSome := by
  induction elems with
  | nil => intro b k h; exact h
  | cons el rest ih =>
    intro b k h
    rw [List.foldl_cons]
    exact ih _ k (processElement_adj_mono el b k h)

/-- Every accepted node element of the input ends with an entry in the node
map of the OSM fold. -/
theorem osmFold_nodes_of_accepted :
    ∀ (elems : List Builder.OsmElement) (b : Builder.GraphBuilder) (i : ℤ),
      Builder.acceptedNode elems i →
      (lookupA (elems.foldl Builder.processElement b).nodes
        (Builder.NodeId.osm i)).isSome := by
  intro elems
  induction elems with
  | nil =>
    rintro b i (⟨lon, lat, tags, hmem, _⟩ | ⟨lon, lat, hmem⟩) <;> simp at hmem
  | cons el rest ih =>
    rintro b i hacc
    rw [List.foldl_cons]
    rcases hacc with ⟨lon, lat, tags, hmem, hwalk⟩ | ⟨lon, lat, hmem⟩
    · rcases List.mem_cons.mp hmem with heq | hmem'
      · subst heq
        apply osmFold_nodes_mono rest
        rw [Builder.processElement, if_pos hwalk]
        rw [show (Builder.GraphBuilder.add_node b (.osm i) lon lat).nodes =
          insertA b.nodes (.osm i) ⟨lon, lat⟩ from rfl]
        rw [lookupA_insertA_self]
        rfl
      · exact ih (Builder.processElement b el) i (Or.inl ⟨lon, lat, tags, hmem', hwalk⟩)
    · rcases List.mem_cons.mp hmem with heq | hmem'
      · subst heq
        apply osmFold_nodes_mono rest
        rw [Builder.processElement]
        rw [show (Builder.GraphBuilder.add_node b (.osm i) lon lat).nodes =
          insertA b.nodes (.osm i) ⟨lon, lat⟩ from rfl]
        rw [lookupA_insertA_self]
        rfl
      · exact ih (Builder.processElement b el) i (Or.inr ⟨lon, lat, hmem'⟩)

/-- A pair member of the pair fold ends with an adjacency entry. -/
theorem wayFold_adj_of_mem :
    ∀ (pairs : List (ℤ × ℤ)) (b : Builder.GraphBuilder) (p : ℤ × ℤ),
      p ∈ pairs → ∀ i : ℤ, p.1 = i ∨ p.2 = i →
      (lookupA (pairs.foldl Builder.wayPairStep b).adjacency
        (Builder.NodeId.osm i)).isSome := by
  intro pairs
  induction pairs with
  | nil =>
    intro b p hp
    simp at hp
  | cons p0 rest ih =>
    intro b p hp i hi
    rw [List.foldl_cons]
    rcases List.mem_cons.mp hp with heq | hmem
    · subst heq
      apply wayFold_adj_mono rest
      rcases hi with h1 | h2
      · subst h1
        exact lookupA_pushEntry_mono _ _ _ _ (lookupA_pushEntry_self _ _ _)
      · subst h2
        exact lookupA_pushEntry_self _ _ _
    · exact ih _ p hmem i hi

/-- Every way-referenced id of the input ends with an adjacency entry in
the OSM fold. -/
theorem osmFold_adj_of_wayRef :
    ∀ (elems : List Builder.OsmElement) (b : Builder.GraphBuilder) (i : ℤ),
      Builder.wayRef elems i →
      (lookupA (elems.foldl Builder.processElement b).adjacency
        (Builder.NodeId.osm i)).isSome := by
  intro elems
  induction elems with
  | nil =>
    rintro b i ⟨refs, tags, hmem, _⟩
    simp at hmem
  | cons el rest ih =>
    rintro b i ⟨refs, tags, hmem, hwalk, p, hp, hpi⟩
    rw [List.foldl_cons]
    rcases List.mem_cons.mp hmem with heq | hmem'
    · subst heq
      apply osmFold_adj_mono rest
      rw [Builder.processElement, if_pos hwalk]
      exact wayFold_adj_of_mem _ b p hp i hpi
    · exact ih _ i ⟨refs, tags, hmem', hwalk, p, hp, hpi⟩

/-- Edges present after the pair fold either were present before or are one
of the two directed walking edges of a processed pair. -/
theorem wayFold_edgeIn :
    ∀ (pairs : List (ℤ × ℤ)) (b : Builder.GraphBuilder) (e : Builder.Edge),
      Builder.edgeIn (pairs.foldl Builder.wayPairStep b).adjacency e →
      Builder.edgeIn b.adjacency e ∨
      ∃ p ∈ pairs,
        e = .walking ⟨.osm p.1, .osm p.2, none⟩ ∨
        e = .walking ⟨.osm p.2, .osm p.1, none⟩ := by
  intro pairs
  induction pairs with
  | nil =>
    intro b e h
    exact Or.inl h
  | cons p0 rest ih =>
    intro b e h
    rw [List.foldl_cons] at h
    rcases ih _ e h with h' | ⟨p, hp, hpe⟩
    · rcases mem_pushEntry_val _ _ _ _ h' with h'' | heq
      · rcases mem_pushEntry_val _ _ _ _ h'' with h3 | heq
        · exact Or.inl h3
        · exact Or.inr ⟨p0, List.mem_cons_self _ _, Or.inl heq⟩
      · exact Or.inr ⟨p0, List.mem_cons_self _ _, Or.inr heq⟩
    · exact Or.inr ⟨p, List.mem_cons_of_mem _ hp, hpe⟩

/-- Edges present after processing one element either were present before
or are the pair edges of an accepted way element. -/
theorem processElement_edgeIn (el : Builder.OsmElement) :
    ∀ (b : Builder.GraphBuilder) (e : Builder.Edge),
      Builder.edgeIn (Builder.processElement b el).adjacency e →
      Builder.edgeIn b.adjacency e ∨
      ∃ refs tags, el = .way refs tags ∧ Builder.is_walkable_way tags = true ∧
        ∃ p ∈ refs.zip refs.tail,
          e = .walking ⟨.osm p.1, .osm p.2, none⟩ ∨
          e = .walking ⟨.osm p.2, .osm p.1, none⟩ := by
  intro b e h
  cases el with
  | node id lon lat tags =>
    rw [Builder.processElement] at h
    by_cases hw : Builder.is_walkable_node tags
    · rw [if_pos hw] at h
      exact Or.inl h
    · rw [if_neg hw] at h
      exact Or.inl h
  | way refs tags =>
    rw [Builder.processElement] at h
    by_cases hw : Builder.is_walkable_way tags
    · rw [if_pos hw] at h
      rcases wayFold_edgeIn _ b e h with h' | ⟨p, hp, hpe⟩
      · exact Or.inl h'
      · exact Or.inr ⟨refs, tags, rfl, hw, p, hp, hpe⟩
    · rw [if_neg hw] at h
      exact Or.inl h
  | dense id lon lat =>
    rw [Builder.processElement] at h
    exact Or.inl h
  | other =>
    rw [Builder.processElement] at h
    exact Or.inl h

/-- `wayRef` is monotone in the element list. -/
theorem wayRef_cons (el : Builder.OsmElement) (elems : List Builder.OsmElement)
    (i : ℤ) : Builder.wayRef elems i → Builder.wayRef (el :: elems) i := by
  rintro ⟨refs, tags, hmem, hwalk, p, hp, hpi⟩
  exact ⟨refs, tags, List.mem_cons_of_mem _ hmem, hwalk, p, hp, hpi⟩

/-- Every edge of the OSM fold (from an empty builder) is a directed
walking edge between two way-referenced street ids. -/
theorem osmFold_edgeIn :
    ∀ (elems : List Builder.OsmElement) (b : Builder.GraphBuilder)
      (e : Builder.Edge),
      Builder.edgeIn (elems.foldl Builder.processElement b).adjacency e →
      Builder.edgeIn b.adjacency e ∨
      ∃ i j, e = .walking ⟨.osm i, .osm j, none⟩ ∧
        Builder.wayRef elems i ∧ Builder.wayRef elems j := by
  intro elems
  induction elems with
  | nil =>
    intro b e h
    exact Or.inl h
  | cons el rest ih =>
    intro b e h
    rw [List.foldl_cons] at h
    rcases ih _ e h with h' | ⟨i, j, he, hwi, hwj⟩
    · rcases processElement_edgeIn el b e h' with h'' | ⟨refs, tags, hel, hwalk, p, hp, hpe⟩
      · exact Or.inl h''
      · subst hel
        rcases hpe with h1 | h2
        · exact Or.inr ⟨p.1, p.2, h1,
            ⟨refs, tags, List.mem_cons_self _ _, hwalk, p, hp, Or.inl rfl⟩,
            ⟨refs, tags, List.mem_cons_self _ _, hwalk, p, hp, Or.inr rfl⟩⟩
        · exact Or.inr ⟨p.2, p.1, h2,
            ⟨refs, tags, List.mem_cons_self _ _, hwalk, p, hp, Or.inr rfl⟩,
            ⟨refs, tags, List.mem_cons_self _ _, hwalk, p, hp, Or.inl rfl⟩⟩
    · exact Or.inr ⟨i, j, he, wayRef_cons el rest i hwi, wayRef_cons el rest j hwj⟩

/-- After `load_osm`, an id that is both way-referenced (so its adjacency
entry exists and survives pruning) and accepted as a node element has an
entry in the node map. -/
theorem load_osm_nodes_key (elems : List Builder.OsmElement) (i : ℤ)
    (hacc : Builder.acceptedNode elems i) (href : Builder.wayRef elems i) :
    (lookupA (Builder.load_osm elems Builder.GraphBuilder.new).nodes
      (Builder.NodeId.osm i)).isSome := by
  have hn := osmFold_nodes_of_accepted elems Builder.GraphBuilder.new i hacc
  have ha := osmFold_adj_of_wayRef elems Builder.GraphBuilder.new i href
  obtain ⟨nd, hnd⟩ := Option.isSome_iff_exists.mp hn
  have hfil :
      lookupA
        ((elems.foldl Builder.processElement Builder.GraphBuilder.new).nodes.filter
          fun kv =>
            (lookupA
              (elems.foldl Builder.processElement Builder.GraphBuilder.new).adjacency
              kv.1).isSome)
        (Builder.NodeId.osm i) = some nd :=
    lookupA_filter_key
      (fun k =>
        (lookupA
          (elems.foldl Builder.processElement Builder.GraphBuilder.new).adjacency
          k).isSome)
      (elems.foldl Builder.processElement Builder.GraphBuilder.new).nodes
      (Builder.NodeId.osm i) ha nd hnd
  rw [show (Builder.load_osm elems Builder.GraphBuilder.new).nodes =
    (elems.foldl Builder.processElement Builder.GraphBuilder.new).nodes.filter
      (fun kv =>
        (lookupA
          (elems.foldl Builder.processElement Builder.GraphBuilder.new).adjacency
          kv.1).isSome) from rfl]
  rw [hfil]
  rfl

/-- C4 (counterexample): an input consisting of a single accepted way over
ids 1 and 2 with no node elements: the built adjacency references node 1
as an edge origin, yet the node map has no entry for it — refuting the
claim for arbitrary builder outputs. -/
theorem C4_counterexample :
    lookupA (Builder.load_osm exElemsWayOnly Builder.GraphBuilder.new).adjacency
        (Builder.NodeId.osm 1) =
      some [Builder.Edge.walking ⟨.osm 1, .osm 2, none⟩] ∧
    lookupA (Builder.load_osm exElemsWayOnly Builder.GraphBuilder.new).nodes
        (Builder.NodeId.osm 1) = none := by
  decide

/-- C4 (amended): for every graph produced by the builder from an input in
which every id referenced by an accepted way also occurs as an accepted
node element (a walkable tagged node or a dense node), every node id
referenced as the origin or destination of any edge in the adjacency
structure has an entry in the node map. -/
theorem C4_edge_endpoints :
    ∀ (elems : List Builder.OsmElement),
      (∀ i : ℤ, Builder.wayRef elems i → Builder.acceptedNode elems i) →
      ∀ (id : Builder.NodeId) (es : List Builder.Edge) (e : Builder.Edge),
        (id, es) ∈ (Builder.load_osm elems Builder.GraphBuilder.new).adjacency →
        e ∈ es →
        (lookupA (Builder.load_osm elems Builder.GraphBuilder.new).nodes
          e.origin).isSome ∧
        (lookupA (Builder.load_osm elems Builder.GraphBuilder.new).nodes
          e.dest).isSome := by
  intro elems hyp id es e hmem he
  have hedge :
      Builder.edgeIn
        (elems.foldl Builder.processElement Builder.GraphBuilder.new).adjacency
        e := ⟨(id, es), hmem, he⟩
  rcases osmFold_edgeIn elems _ e hedge with h | ⟨i, j, he', hwi, hwj⟩
  · obtain ⟨kes, hk, _⟩ := h
    simp [Builder.GraphBuilder.new] at hk
  · subst he'
    exact ⟨load_osm_nodes_key elems i (hyp i hwi) hwi,
           load_osm_nodes_key elems j (hyp j hwj) hwj⟩

/-- C4 (witness): the amended claim at a complete concrete input (the way
plus dense nodes for both referenced ids). -/
theorem C4_witness :
    (lookupA (Builder.load_osm exElemsComplete Builder.GraphBuilder.new).nodes
      (Builder.Edge.walking ⟨.osm 1, .osm 2, none⟩).origin).isSome ∧
    (lookupA (Builder.load_osm exElemsComplete Builder.GraphBuilder.new).nodes
      (Builder.Edge.walking ⟨.osm 1, .osm 2, none⟩).dest).isSome := by
  refine C4_edge_endpoints exElemsComplete ?_ (Builder.NodeId.osm 1)
    [Builder.Edge.walking ⟨.osm 1, .osm 2, none⟩]
    (Builder.Edge.walking ⟨.osm 1, .osm 2, none⟩) (by decide) (by decide)
  rintro i ⟨refs, tags, hmem, hwalk, p, hp, hpi⟩
  simp only [exElemsComplete, List.mem_cons, List.mem_singleton] at hmem
  rcases hmem with heq | heq | heq | heq
  · rw [Builder.OsmElement.way.injEq] at heq
    obtain ⟨hrefs, htags⟩ := heq
    subst hrefs
    simp only [List.zip, List.zipWith, List.mem_singleton] at hp
    subst hp
    rcases hpi with h1 | h2
    · exact Or.inr ⟨0, 0, by rw [← h1]; simp [exElemsComplete]⟩
    · exact Or.inr ⟨0, 0, by rw [← h2]; simp [exElemsComplete]⟩
  · exact absurd heq (by simp)
  · exact absurd heq (by simp)
  · exact absurd heq (by simp)

/-- Filtering preserves a lookup whose entry satisfies the predicate. -/
theorem lookupA_filter_val {α β : Type} [DecidableEq α]
    (p : α × β → Bool) :
    ∀ (l : List (α × β)) (k : α) (v : β),
      lookupA l k = some v → p (k, v) = true →
      lookupA (l.filter p) k = some v := by
  intro l
  induction l with
  | nil =>
    intro k v h
    simp [lookupA] at h
  | cons kv rest ih =>
    obtain ⟨k', v'⟩ := kv
    intro k v h hp
    rw [lookupA] at h
    by_cases hkk : k' = k
    · subst hkk
      rw [if_pos rfl] at h
      rw [Option.some.injEq] at h
      subst h
      rw [List.filter_cons, if_pos hp]
      rw [lookupA, if_pos rfl]
    · rw [if_neg hkk] at h
      rw [List.filter_cons]
      by_cases hph : p (k', v')
      · rw [if_pos hph]
        rw [lookupA, if_neg hkk]
        exact ih k v h hp
      · rw [if_neg (by simpa using hph)]
        exact ih k v h hp

/-- `pushEdgeEntry` under a different key does not affect a lookup. -/
theorem pushEdgeEntry_other :
    ∀ (m : List (String × OldGraph.Node)) (k0 : String) (e : OldGraph.Edge)
      (key : String), k0 ≠ key →
      lookupA (OldGraph.pushEdgeEntry m k0 e) key = lookupA m key := by
  intro m
  induction m with
  | nil =>
    intro k0 e key hne
    rw [OldGraph.pushEdgeEntry, lookupA, lookupA, if_neg hne, lookupA]
  | cons kv rest ih =>
    obtain ⟨k', n⟩ := kv
    intro k0 e key hne
    by_cases hk : k' = k0
    · have hkey : ¬ k' = key := fun h => hne (hk.symm.trans h)
      rw [OldGraph.pushEdgeEntry, if_pos hk, lookupA, lookupA,
        if_neg hkey, if_neg hkey]
    · rw [OldGraph.pushEdgeEntry, if_neg hk, lookupA, lookupA]
      by_cases hkk : k' = key
      · rw [if_pos hkk, if_pos hkk]
      · rw [if_neg hkk, if_neg hkk]
        exact ih k0 e key hne

/-- `pushEdgeEntry` on an absent key creates the default-coordinate entry
holding just the pushed edge. -/
theorem pushEdgeEntry_self_none :
    ∀ (m : List (String × OldGraph.Node)) (k : String) (e : OldGraph.Edge),
      lookupA m k = none →
      lookupA (OldGraph.pushEdgeEntry m k e) k = some ⟨0, 0, [e]⟩ := by
  intro m
  induction m with
  | nil =>
    intro k e _
    rw [OldGraph.pushEdgeEntry, lookupA, if_pos rfl]
    rfl
  | cons kv rest ih =>
    obtain ⟨k', n⟩ := kv
    intro k e h
    rw [lookupA] at h
    by_cases hk : k' = k
    · rw [if_pos hk] at h
      simp at h
    · rw [if_neg hk] at h
      rw [OldGraph.pushEdgeEntry, if_neg hk, lookupA, if_neg hk]
      exact ih k e h

/-- `pushEdgeEntry` on a present key appends the edge and keeps the
coordinates. -/
theorem pushEdgeEntry_self_some :
    ∀ (m : List (String × OldGraph.Node)) (k : String) (e : OldGraph.Edge)
      (n : OldGraph.Node),
      lookupA m k = some n →
      lookupA (OldGraph.pushEdgeEntry m k e) k =
        some ⟨n.lon, n.lat, n.edges ++ [e]⟩ := by
  intro m
  induction m with
  | nil =>
    intro k e n h
    simp [lookupA] at h
  | cons kv rest ih =>
    obtain ⟨k', n'⟩ := kv
    intro k e n h
    rw [lookupA] at h
    by_cases hk : k' = k
    · rw [if_pos hk] at h
      rw [Option.some.injEq] at h
      subst h
      rw [OldGraph.pushEdgeEntry, if_pos hk, lookupA, if_pos hk]
    · rw [if_neg hk] at h
      rw [OldGraph.pushEdgeEntry, if_neg hk, lookupA, if_neg hk]
      exact ih k e n h

/-- `setCoordEntry` under a different key does not affect a lookup. -/
theorem setCoordEntry_other :
    ∀ (m : List (String × OldGraph.Node)) (k0 : String) (x y : ℚ)
      (key : String), k0 ≠ key →
      lookupA (OldGraph.setCoordEntry m k0 x y) key = lookupA m key := by
  intro m
  induction m with
  | nil =>
    intro k0 x y key hne
    rw [OldGraph.setCoordEntry, lookupA, lookupA, if_neg hne, lookupA]
  | cons kv rest ih =>
    obtain ⟨k', n⟩ := kv
    intro k0 x y key hne
    by_cases hk : k' = k0
    · have hkey : ¬ k' = key := fun h => hne (hk.symm.trans h)
      rw [OldGraph.setCoordEntry, if_pos hk, lookupA, lookupA,
        if_neg hkey, if_neg hkey]
    · rw [OldGraph.setCoordEntry, if_neg hk, lookupA, lookupA]
      by_cases hkk : k' = key
      · rw [if_pos hkk, if_pos hkk]
      · rw [if_neg hkk, if_neg hkk]
        exact ih k0 x y key hne

/-- `setCoordEntry` on a present key keeps the entry's edges. -/
theorem setCoordEntry_self_some :
    ∀ (m : List (String × OldGraph.Node)) (k : String) (x y : ℚ)
      (n : OldGraph.Node),
      lookupA m k = some n →
      lookupA (OldGraph.setCoordEntry m k x y) k = some ⟨x, y, n.edges⟩ := by
  intro m
  induction m with
  | nil =>
    intro k x y n h
    simp [lookupA] at h
  | cons kv rest ih =>
    obtain ⟨k', n'⟩ := kv
    intro k x y n h
    rw [lookupA] at h
    by_cases hk : k' = k
    · rw [if_pos hk] at h
      rw [Option.some.injEq] at h
      subst h
      rw [OldGraph.setCoordEntry, if_pos hk, lookupA, if_pos hk]
    · rw [if_neg hk] at h
      rw [OldGraph.setCoordEntry, if_neg hk, lookupA, if_neg hk]
      exact ih k x y n h

/-- The node map produced by one `wayPairStep` of `build_graph_osm`. -/
theorem wayPairStepO_nodes (g : OldGraph.Graph) (p : ℤ × ℤ) :
    (OldGraph.wayPairStep g p).nodes =
      OldGraph.pushEdgeEntry
        (OldGraph.pushEdgeEntry g.nodes (toString p.1)
          (.walking ⟨toString p.1, toString p.2, none⟩))
        (toString p.2) (.walking ⟨toString p.2, toString p.1, none⟩) := rfl

/-- `pushEdgeEntry` preserves "absent, or present at the default (0, 0)
coordinates": a created entry has the default coordinates, and an existing
entry keeps its coordinates. -/
theorem pushEdgeEntry_coords (m : List (String × OldGraph.Node)) (k0 : String)
    (e : OldGraph.Edge) (key : String) :
    (lookupA m key = none ∨
      ∃ n, lookupA m key = some n ∧ n.lon = 0 ∧ n.lat = 0) →
    (lookupA (OldGraph.pushEdgeEntry m k0 e) key = none ∨
      ∃ n, lookupA (OldGraph.pushEdgeEntry m k0 e) key = some n ∧
        n.lon = 0 ∧ n.lat = 0) := by
  intro h
  by_cases hk : k0 = key
  · subst hk
    rcases h with h | ⟨n, hn, hlon, hlat⟩
    · exact Or.inr ⟨⟨0, 0, [e]⟩, pushEdgeEntry_self_none _ _ _ h, rfl, rfl⟩
    · exact Or.inr ⟨⟨n.lon, n.lat, n.edges ++ [e]⟩,
        pushEdgeEntry_self_some _ _ _ _ hn, hlon, hlat⟩
  · rw [pushEdgeEntry_other _ _ _ _ hk]
    exact h

/-- `pushEdgeEntry` preserves "present with nonempty edges". -/
theorem pushEdgeEntry_edges_mono (m : List (String × OldGraph.Node))
    (k0 : String) (e : OldGraph.Edge) (key : String) :
    (∃ n : OldGraph.Node, lookupA m key = some n ∧ n.edges ≠ []) →
    ∃ n : OldGraph.Node,
      lookupA (OldGraph.pushEdgeEntry m k0 e) key = some n ∧ n.edges ≠ [] := by
  rintro ⟨n, hn, hne⟩
  by_cases hk : k0 = key
  · subst hk
    exact ⟨_, pushEdgeEntry_self_some _ _ _ _ hn, by simp⟩
  · rw [pushEdgeEntry_other _ _ _ _ hk]
    exact ⟨n, hn, hne⟩

/-- The key pushed by `pushEdgeEntry` ends present with nonempty edges. -/
theorem pushEdgeEntry_edges_self (m : List (String × OldGraph.Node))
    (k : String) (e : OldGraph.Edge) :
    ∃ n : OldGraph.Node,
      lookupA (OldGraph.pushEdgeEntry m k e) k = some n ∧ n.edges ≠ [] := by
  cases hl : lookupA m k with
  | none => exact ⟨_, pushEdgeEntry_self_none _ _ _ hl, by simp⟩
  | some n0 => exact ⟨_, pushEdgeEntry_self_some _ _ _ _ hl, by simp⟩

/-- `setCoordEntry` preserves "present with nonempty edges". -/
theorem setCoordEntry_edges_mono (m : List (String × OldGraph.Node))
    (k0 : String) (x y : ℚ) (key : String) :
    (∃ n : OldGraph.Node, lookupA m key = some n ∧ n.edges ≠ []) →
    ∃ n : OldGraph.Node,
      lookupA (OldGraph.setCoordEntry m k0 x y) key = some n ∧ n.edges ≠ [] := by
  rintro ⟨n, hn, hne⟩
  by_cases hk : k0 = key
  · subst hk
    exact ⟨⟨x, y, n.edges⟩, setCoordEntry_self_some _ _ _ _ _ hn, hne⟩
  · rw [setCoordEntry_other _ _ _ _ _ hk]
    exact ⟨n, hn, hne⟩

/-- The pair fold of `build_graph_osm` preserves the default-coordinates
invariant for every key. -/
theorem wayFoldO_coords (pairs : List (ℤ × ℤ)) :
    ∀ (g : OldGraph.Graph) (key : String),
      (lookupA g.nodes key = none ∨
        ∃ n, lookupA g.nodes key = some n ∧ n.lon = 0 ∧ n.lat = 0) →
      (lookupA (pairs.foldl OldGraph.wayPairStep g).nodes key = none ∨
        ∃ n, lookupA (pairs.foldl OldGraph.wayPairStep g).nodes key = some n ∧
          n.lon = 0 ∧ n.lat = 0) := by
  induction pairs with
  | nil => intro g key h; exact h
  | cons p rest ih =>
    intro g key h
    rw [List.foldl_cons]
    refine ih _ key ?_
    rw [wayPairStepO_nodes]
    exact pushEdgeEntry_coords _ _ _ _ (pushEdgeEntry_coords _ _ _ _ h)

/-- The pair fold preserves "present with nonempty edges". -/
theorem wayFoldO_edges_mono (pairs : List (ℤ × ℤ)) :
    ∀ (g : OldGraph.Graph) (key : String),
      (∃ n : OldGraph.Node, lookupA g.nodes key = some n ∧ n.edges ≠ []) →
      ∃ n : OldGraph.Node,
        lookupA (pairs.foldl OldGraph.wayPairStep g).nodes key = some n ∧
          n.edges ≠ [] := by
  induction pairs with
  | nil => intro g key h; exact h
  | cons p rest ih =>
    intro g key h
    rw [List.foldl_cons]
    refine ih _ key ?_
    rw [wayPairStepO_nodes]
    exact pushEdgeEntry_edges_mono _ _ _ _ (pushEdgeEntry_edges_mono _ _ _ _ h)

/-- A key referenced by a processed pair ends present with nonempty
edges. -/
theorem wayFoldO_edges_of_mem (pairs : List (ℤ × ℤ)) :
    ∀ (g : OldGraph.Graph) (p : ℤ × ℤ), p ∈ pairs →
      ∀ key : String, toString p.1 = key ∨ toString p.2 = key →
      ∃ n : OldGraph.Node,
        lookupA (pairs.foldl OldGraph.wayPairStep g).nodes key = some n ∧
          n.edges ≠ [] := by
  induction pairs with
  | nil =>
    intro g p hp
    simp at hp
  | cons p0 rest ih =>
    intro g p hp key hkey
    rw [List.foldl_cons]
    rcases List.mem_cons.mp hp with heq | hmem
    · subst heq
      refine wayFoldO_edges_mono rest _ key ?_
      rw [wayPairStepO_nodes]
      rcases hkey with h1 | h2
      · subst h1
        exact pushEdgeEntry_edges_mono _ _ _ _ (pushEdgeEntry_edges_self _ _ _)
      · subst h2
        exact pushEdgeEntry_edges_self _ _ _
    · exact ih _ p hmem key hkey

/-- Weakening of `addedNodeO` to a longer element list. -/
theorem addedNodeO_cons (el : Builder.OsmElement)
    (elems : List Builder.OsmElement) (key : String) :
    OldGraph.addedNodeO elems key → OldGraph.addedNodeO (el :: elems) key := by
  rintro (⟨i, lon, lat, tags, hmem, hwalk, hid⟩ | ⟨i, lon, lat, hmem, hid⟩)
  · exact Or.inl ⟨i, lon, lat, tags, List.mem_cons_of_mem _ hmem, hwalk, hid⟩
  · exact Or.inr ⟨i, lon, lat, List.mem_cons_of_mem _ hmem, hid⟩

/-- Through the whole OSM fold, a key that is never passed to `add_node`
is either absent or sits at the default (0, 0) coordinates. -/
theorem osmFoldO_coords :
    ∀ (elems : List Builder.OsmElement) (g : OldGraph.Graph) (key : String),
      ¬ OldGraph.addedNodeO elems key →
      (lookupA g.nodes key = none ∨
        ∃ n, lookupA g.nodes key = some n ∧ n.lon = 0 ∧ n.lat = 0) →
      (lookupA (elems.foldl OldGraph.processElement g).nodes key = none ∨
        ∃ n, lookupA (elems.foldl OldGraph.processElement g).nodes key = some n ∧
          n.lon = 0 ∧ n.lat = 0) := by
  intro elems
  induction elems with
  | nil => intro g key _ h; exact h
  | cons el rest ih =>
    intro g key hna h
    rw [List.foldl_cons]
    refine ih _ key (fun ha => hna (addedNodeO_cons el rest key ha)) ?_
    cases el with
    | node i lon lat tags =>
      rw [OldGraph.processElement]
      by_cases hw : Builder.is_walkable_node tags
      · rw [if_pos hw]
        have hne : toString i ≠ key := fun hid =>
          hna (Or.inl ⟨i, lon, lat, tags, List.mem_cons_self _ _, hw, hid⟩)
        rw [show (OldGraph.Graph.add_node g (toString i) lon lat).nodes =
          OldGraph.setCoordEntry g.nodes (toString i) lon lat from rfl]
        rw [setCoordEntry_other _ _ _ _ _ hne]
        exact h
      · rw [if_neg hw]
        exact h
    | way refs tags =>
      rw [OldGraph.processElement]
      by_cases hw : Builder.is_walkable_way tags
      · rw [if_pos hw]
        exact wayFoldO_coords _ g key h
      · rw [if_neg hw]
        exact h
    | dense i lon lat =>
      rw [OldGraph.processElement]
      have hne : toString i ≠ key := fun hid =>
        hna (Or.inr ⟨i, lon, lat, List.mem_cons_self _ _, hid⟩)
      rw [show (OldGraph.Graph.add_node g (toString i) lon lat).nodes =
        OldGraph.setCoordEntry g.nodes (toString i) lon lat from rfl]
      rw [setCoordEntry_other _ _ _ _ _ hne]
      exact h
    | other =>
      rw [OldGraph.processElement]
      exact h

/-- `processElement` of the old builder preserves "present with nonempty
edges". -/
theorem processElementO_edges_mono (el : Builder.OsmElement) :
    ∀ (g : OldGraph.Graph) (key : String),
      (∃ n : OldGraph.Node, lookupA g.nodes key = some n ∧ n.edges ≠ []) →
      ∃ n : OldGraph.Node,
        lookupA (OldGraph.processElement g el).nodes key = some n ∧
          n.edges ≠ [] := by
  intro g key h
  cases el with
  | node i lon lat tags =>
    rw [OldGraph.processElement]
    by_cases hw : Builder.is_walkable_node tags
    · rw [if_pos hw]
      exact setCoordEntry_edges_mono _ _ _ _ _ h
    · rw [if_neg hw]
      exact h
  | way refs tags =>
    rw [OldGraph.processElement]
    by_cases hw : Builder.is_walkable_way tags
    · rw [if_pos hw]
      exact wayFoldO_edges_mono _ g key h
    · rw [if_neg hw]
      exact h
  | dense i lon lat =>
    rw [OldGraph.processElement]
    exact setCoordEntry_edges_mono _ _ _ _ _ h
  | other =>
    rw [OldGraph.processElement]
    exact h

/-- The whole OSM fold preserves "present with nonempty edges". -/
theorem osmFoldO_edges_mono :
    ∀ (elems : List Builder.OsmElement) (g : OldGraph.Graph) (key : String),
      (∃ n : OldGraph.Node, lookupA g.nodes key = some n ∧ n.edges ≠ []) →
      ∃ n : OldGraph.Node,
        lookupA (elems.foldl OldGraph.processElement g).nodes key = some n ∧
          n.edges ≠ [] := by
  intro elems
  induction elems with
  | nil => intro g key h; exact h
  | cons el rest ih =>
    intro g key h
    rw [List.foldl_cons]
    exact ih _ key (processElementO_edges_mono el g key h)

/-- Every way-referenced key (under stringification) ends present with
nonempty edges after the OSM fold. -/
theorem osmFoldO_edges_of_wayRef :
    ∀ (elems : List Builder.OsmElement) (g : OldGraph.Graph) (key : String),
      OldGraph.wayRefO elems key →
      ∃ n : OldGraph.Node,
        lookupA (elems.foldl OldGraph.processElement g).nodes key = some n ∧
          n.edges ≠ [] := by
  intro elems
  induction elems with
  | nil =>
    rintro g key ⟨refs, tags, hmem, _⟩
    simp at hmem
  | cons el rest ih =>
    rintro g key ⟨refs, tags, hmem, hwalk, p, hp, hpi⟩
    rw [List.foldl_cons]
    rcases List.mem_cons.mp hmem with heq | hmem'
    · subst heq
      refine osmFoldO_edges_mono rest _ key ?_
      rw [OldGraph.processElement, if_pos hwalk]
      exact wayFoldO_edges_of_mem _ g p hp key hpi
    · exact ih _ key ⟨refs, tags, hmem', hwalk, p, hp, hpi⟩

/-- C9: in the older builder (`build_graph_osm` in `graph.rs`), every key
that appears in an accepted way (hence as an edge origin) but was never
passed to `add_node` ends up in the built graph with the default
coordinates `lon = 0, lat = 0`, survives the pruning of edgeless nodes
(it has edges), and is inserted into the spatial index at `[0, 0]`. -/
theorem C9_default_node :
    ∀ (elems : List Builder.OsmElement) (key : String),
      OldGraph.wayRefO elems key →
      ¬ OldGraph.addedNodeO elems key →
      ∃ n : OldGraph.Node,
        lookupA (OldGraph.build_graph_osm_phase1 elems).nodes key = some n ∧
        n.lon = 0 ∧ n.lat = 0 ∧ n.edges ≠ [] ∧
        ((0, 0), key) ∈ (OldGraph.build_graph_osm_phase1 elems).tree := by
  intro elems key hw hna
  obtain ⟨n, hn, hne⟩ :=
    osmFoldO_edges_of_wayRef elems OldGraph.Graph.default key hw
  have hp := osmFoldO_coords elems OldGraph.Graph.default key hna (Or.inl rfl)
  rcases hp with hp | ⟨n', hn', hlon, hlat⟩
  · rw [hn] at hp
    exact absurd hp (by simp)
  · rw [hn] at hn'
    rw [Option.some.injEq] at hn'
    subst hn'
    have hfil :
        lookupA
          ((elems.foldl OldGraph.processElement OldGraph.Graph.default).nodes.filter
            fun kv => !kv.2.edges.isEmpty) key = some n :=
      lookupA_filter_val (fun kv => !kv.2.edges.isEmpty) _ key n hn
        (by simpa using hne)
    refine ⟨n, hfil, hlon, hlat, hne, ?_⟩
    have hmem := lookupA_mem _ _ _ hfil
    have hmap :
        ((n.lon, n.lat), key) ∈
          ((elems.foldl OldGraph.processElement OldGraph.Graph.default).nodes.filter
            fun kv => !kv.2.edges.isEmpty).map
            (fun kv => ((kv.2.lon, kv.2.lat), kv.1)) :=
      List.mem_map_of_mem _ hmem
    rw [hlon, hlat] at hmap
    exact List.mem_append_right _ hmap

/-- C9 (witness): the theorem at the concrete single-way input with no node
elements: key `"1"` gets default coordinates, keeps its edges, and is
indexed at the origin. -/
theorem C9_witness :
    ∃ n : OldGraph.Node,
      lookupA (OldGraph.build_graph_osm_phase1 exElemsWayOnly).nodes "1" =
        some n ∧
      n.lon = 0 ∧ n.lat = 0 ∧ n.edges ≠ [] ∧
      ((0, 0), "1") ∈ (OldGraph.build_graph_osm_phase1 exElemsWayOnly).tree := by
  refine C9_default_node exElemsWayOnly "1"
    ⟨[1, 2], [("highway", "residential")], List.mem_cons_self _ _, by decide,
      (1, 2), by decide, Or.inl (by decide)⟩ ?_
  rintro (⟨i, lon, lat, tags, hmem, _, _⟩ | ⟨i, lon, lat, hmem, _⟩) <;>
    simp [exElemsWayOnly] at hmem

/-- C1 (counterexample): a transport edge whose `start_time` (100) is not
before the rider's current absolute cost (50 = earliest_departure +
cur_cost), so the claimed boarding condition holds, yet whose relaxation
evaluates to `some none` — the edge is SKIPPED and produces no candidate,
because its `end_time` (1000) is after the query's arrival time (500) —
refuting the claimed "if and only if". -/
theorem C1_counterexample :
    50 ≤ 100 ∧
      Dij.relaxEdge exG exDist 500 [] 50 exLateEdge = some none := by
  decide

/-- C1 (amended): in the Dijkstra relaxation, for every edge carrying a
scheduled start time AND a scheduled end time (a transport edge) whose
endpoints are present in the node map, and every current absolute cost
`cost = earliest_departure + cur_cost` at its origin, the edge produces a
candidate if and only if `start_time ≥ cost` AND `end_time ≤ arrival` AND
its destination is not yet settled; and when it does, the candidate's
absolute cost is exactly `end_time` (so its elapsed cost is
`end_time - earliest_departure`, independent of how early the rider
reached the origin). -/
theorem C1_transport_relaxation :
    ∀ (g : Dij.DGraph) (dist : ℚ × ℚ → ℚ × ℚ → ℚ)
      (arrival : ℕ) (visited : List ℤ) (cost : ℕ) (e : Dij.DEdge) (s et : ℕ),
      e.start_time = some s → e.end_time = some et →
      (lookupA g.nodes e.origin).isSome →
      (lookupA g.nodes e.destination).isSome →
      ((∃ st, Dij.relaxEdge g dist arrival visited cost e = some (some st)) ↔
        cost ≤ s ∧ et ≤ arrival ∧ e.destination ∉ visited) ∧
      (∀ st, Dij.relaxEdge g dist arrival visited cost e = some (some st) →
        st.cost = et ∧ st.position = e.destination) := by
  intro g dist arrival visited cost e s et hs he ho hd
  obtain ⟨dn, hdn⟩ := Option.isSome_iff_exists.mp hd
  obtain ⟨sn, hsn⟩ := Option.isSome_iff_exists.mp ho
  obtain ⟨eo, ed, est, eet, ett⟩ := e
  simp only at hs he hsn hdn ⊢
  subst hs he
  unfold Dij.relaxEdge
  cases ett with
  | none =>
    rw [hsn, hdn]
    simp only [Option.getD_some]
    split_ifs with h1 h2 h3
    · simp only [Dij.tooEarly, decide_eq_true_eq] at h1
      exact ⟨⟨fun ⟨st, hst⟩ => by simp at hst,
              fun hrhs => absurd hrhs.1 (by omega)⟩,
             fun st hst => by simp at hst⟩
    · simp only [Dij.tooLate, decide_eq_true_eq] at h2
      exact ⟨⟨fun ⟨st, hst⟩ => by simp at hst,
              fun hrhs => absurd hrhs.2.1 (by omega)⟩,
             fun st hst => by simp at hst⟩
    · exact ⟨⟨fun ⟨st, hst⟩ => by simp at hst,
              fun hrhs => absurd h3 hrhs.2.2⟩,
             fun st hst => by simp at hst⟩
    · simp only [Dij.tooEarly, decide_eq_true_eq] at h1
      simp only [Dij.tooLate, decide_eq_true_eq] at h2
      refine ⟨⟨fun _ => ⟨by omega, by omega, h3⟩, fun _ => ⟨_, rfl⟩⟩,
              fun st hst => ?_⟩
      simp only [Option.some.injEq] at hst
      rw [← hst]
      exact ⟨rfl, rfl⟩
  | some t =>
    rw [hdn]
    simp only [Option.getD_some]
    split_ifs with h1 h2 h3
    · simp only [Dij.tooEarly, decide_eq_true_eq] at h1
      exact ⟨⟨fun ⟨st, hst⟩ => by simp at hst,
              fun hrhs => absurd hrhs.1 (by omega)⟩,
             fun st hst => by simp at hst⟩
    · simp only [Dij.tooLate, decide_eq_true_eq] at h2
      exact ⟨⟨fun ⟨st, hst⟩ => by simp at hst,
              fun hrhs => absurd hrhs.2.1 (by omega)⟩,
             fun st hst => by simp at hst⟩
    · exact ⟨⟨fun ⟨st, hst⟩ => by simp at hst,
              fun hrhs => absurd h3 hrhs.2.2⟩,
             fun st hst => by simp at hst⟩
    · simp only [Dij.tooEarly, decide_eq_true_eq] at h1
      simp only [Dij.tooLate, decide_eq_true_eq] at h2
      refine ⟨⟨fun _ => ⟨by omega, by omega, h3⟩, fun _ => ⟨_, rfl⟩⟩,
              fun st hst => ?_⟩
      simp only [Option.some.injEq] at hst
      rw [← hst]
      exact ⟨rfl, rfl⟩

/-- C1 (witness): the amended relaxation theorem at a concrete transport
edge (`start_time = 100 ≥ cost = 50`, `end_time = 400 ≤ arrival = 500`,
fresh destination): a candidate exists and its absolute cost is the
edge's end time. -/
theorem C1_witness :
    ((∃ st, Dij.relaxEdge exG exDist 500 [] 50 ⟨1, 2, some 100, some 400, none⟩ =
        some (some st)) ↔ 50 ≤ 100 ∧ 400 ≤ 500 ∧ (2 : ℤ) ∉ ([] : List ℤ)) ∧
    (∀ st, Dij.relaxEdge exG exDist 500 [] 50 ⟨1, 2, some 100, some 400, none⟩ =
        some (some st) → st.cost = 400 ∧ st.position = 2) :=
  C1_transport_relaxation exG exDist 500 [] 50 ⟨1, 2, some 100, some 400, none⟩
    100 400 rfl rfl (by decide) (by decide)

end TransitIso
